import Mathlib

/-!
A shallow embedding of etl_script.py (class ExtractTransformLoad) and proofs
about it.  Python dicts are modelled as association lists with in-place
update (preserving insertion order, as Python 3.7+ dicts do); Python sets
are modelled as duplicate-free lists in insertion order (Python set
iteration order is unspecified; every observable output of the script
sorts, so this determinization is only visible where the numeric sort key
ties).  Python values occurring in rows are strings or integers, so the
value type has exactly those constructors.  Fallible operations (KeyError,
ValueError escaping a sort key, TypeError on mixed comparisons) are
modelled with Option.  XML text nodes are modelled as strings (text-bearing
nodes), and csv records are modelled as one line per record, so that
reader.line_num is the 1-based record index.
-/

/-- A Python value stored in a row: a string or an integer. -/
inductive Value where
  | vstr (s : String)
  | vint (n : Int)
  deriving DecidableEq, Repr

/-- A row: a Python dict from column name to value, as an association list
in insertion order. -/
abbrev Row := List (String × Value)

/-- A diagnostic message printed for a dropped measure field: the file
path, the column name, the offending raw value, and (for csv) the
1-based line number of the record. -/
structure Diag where
  path : String
  column : String
  raw : Value
  lineNum : Option Nat
  deriving DecidableEq, Repr

/-- Python dict lookup: first (unique) binding of the key. -/
def alookup (k : String) : Row → Option Value
  | [] => none
  | (k2, v) :: r => if k2 = k then some v else alookup k r

/-- Python dict assignment d[k] = v: update in place if present, else
append at the end (insertion order of Python 3.7+ dicts). -/
def dictSet (k : String) (v : Value) : Row → Row
  | [] => [(k, v)]
  | (k2, w) :: r => if k2 = k then (k2, v) :: r else (k2, w) :: dictSet k v r

/-- Python dict get with default. -/
def rowGet (r : Row) (k : String) (d : Value) : Value :=
  match alookup k r with
  | some v => v
  | none => d

/-- Python set.add on a duplicate-free list. -/
def sadd (s : List String) (x : String) : List String :=
  if x ∈ s then s else s ++ [x]

/-- Python set.update on a duplicate-free list. -/
def saddAll (s : List String) (xs : List String) : List String :=
  xs.foldl sadd s

/-- Python set(xs): the distinct elements of xs, first occurrences kept. -/
def slist (xs : List String) : List String :=
  saddAll [] xs

/-- Parse a digit run with single underscores allowed between digits,
accumulating into acc; models the tail of a Python integer literal. -/
def parseDigitsU : List Char → Nat → Option Nat
  | [], acc => some acc
  | '_' :: c :: rest, acc =>
      if c.isDigit then parseDigitsU rest (acc * 10 + (c.toNat - 48)) else none
  | c :: rest, acc =>
      if c.isDigit then parseDigitsU rest (acc * 10 + (c.toNat - 48)) else none

/-- Parse a nonempty digit run (underscore separators allowed after the
first digit). -/
def startDigits : List Char → Option Nat
  | [] => none
  | c :: rest => if c.isDigit then parseDigitsU rest (c.toNat - 48) else none

/-- Strip whitespace characters from both ends of a character list
(Python str.strip as used by int()). -/
def trimChars (cs : List Char) : List Char :=
  ((cs.dropWhile Char.isWhitespace).reverse.dropWhile Char.isWhitespace).reverse

/-- Python int(str): strip surrounding whitespace, optional single sign,
then a nonempty digit run with optional single underscores between
digits.  Returns none where Python raises ValueError. -/
def pyIntOfString (s : String) : Option Int :=
  match trimChars s.toList with
  | '+' :: rest => (startDigits rest).map Int.ofNat
  | '-' :: rest => (startDigits rest).map (fun n => -(n : Int))
  | rest => (startDigits rest).map Int.ofNat

/-- Python int(val) on a row value: identity on integers, string parse on
strings. -/
def pyInt : Value → Option Int
  | .vint n => some n
  | .vstr s => pyIntOfString s

/-- The accumulated ETL state: rows, the column universe, and the list of
per-source column sets (attributes rows, columns, common_columns). -/
structure ETL where
  rows : List Row
  columns : List String
  common_columns : List (List String)
  deriving DecidableEq, Repr

/-- The freshly initialized state. -/
def ETL.init : ETL := ⟨[], [], []⟩

/-- Process the (header key, cell) pairs of one csv record into a new row,
emitting a diagnostic for each measure cell that fails integer coercion
(read_csv, inner loop). -/
def csvFields (path : String) (ln : Nat) : List (String × String) → Row → Row × List Diag
  | [], r => (r, [])
  | (k, v) :: rest, r =>
    if k.front = 'D' then csvFields path ln rest (dictSet k (.vstr v) r)
    else if k.front = 'M' then
      match pyIntOfString v with
      | some n => csvFields path ln rest (dictSet k (.vint n) r)
      | none =>
        let p := csvFields path ln rest r
        (p.1, ⟨path, k, .vstr v, some ln⟩ :: p.2)
    else csvFields path ln rest r

/-- The record loop of read_csv: cols is the current header (empty when no
nonempty header has been seen, matching the Python truthiness test), and
n is the number of records already consumed. -/
def read_csv_aux (path : String) : List (List String) → ETL → List String → Nat → ETL × List Diag
  | [], st, _, _ => (st, [])
  | rec :: rest, st, cols, n =>
    if cols.isEmpty then
      read_csv_aux path rest
        { st with columns := saddAll st.columns rec,
                  common_columns := st.common_columns ++ [slist rec] }
        rec (n + 1)
    else
      let p := csvFields path (n + 1) (cols.zip rec) []
      let q := read_csv_aux path rest { st with rows := st.rows ++ [p.1] } cols (n + 1)
      (q.1, p.2 ++ q.2)

/-- Method read_csv: the input is the list of csv records. -/
def read_csv (st : ETL) (path : String) (input : List (List String)) : ETL × List Diag :=
  read_csv_aux path input st [] 0

/-- Process the (key, value) pairs of one json field into a new row
(read_json, inner loop).  For a measure key whose value coerces, the
following unconditional assignment stores the raw value, overwriting the
coerced integer; on coercion failure the key is dropped and a diagnostic
is emitted; every non-measure key is stored raw. -/
def jsonFields (path : String) : List (String × Value) → Row → Row × List Diag
  | [], r => (r, [])
  | (k, v) :: rest, r =>
    if k.front = 'M' then
      match pyInt v with
      | some _ => jsonFields path rest (dictSet k v r)
      | none =>
        let p := jsonFields path rest r
        (p.1, ⟨path, k, v, none⟩ :: p.2)
    else jsonFields path rest (dictSet k v r)

/-- The field loop of read_json: one appended row per field, the column
universe widened by every key of every field, and one accumulated
source column set for the whole call. -/
def read_json_aux (path : String) : List (List (String × Value)) → ETL → List String → ETL × List Diag
  | [], st, cc => ({ st with common_columns := st.common_columns ++ [cc] }, [])
  | field :: rest, st, cc =>
    let p := jsonFields path field []
    let q := read_json_aux path rest
      { st with rows := st.rows ++ [p.1],
                columns := saddAll st.columns (field.map Prod.fst) }
      (saddAll cc (field.map Prod.fst))
    (q.1, p.2 ++ q.2)

/-- Method read_json: the input is the list of fields, each an object in
key insertion order. -/
def read_json (st : ETL) (path : String) (fields : List (List (String × Value))) : ETL × List Diag :=
  read_json_aux path fields st []

/-- Process the child text nodes of one xml object element, overwriting
the object's column on every stored child (read_xml, inner loop). -/
def xmlChildren (path col : String) : List String → Row → Row × List Diag
  | [], r => (r, [])
  | t :: rest, r =>
    if col.front = 'D' then xmlChildren path col rest (dictSet col (.vstr t) r)
    else if col.front = 'M' then
      match pyIntOfString t with
      | some n => xmlChildren path col rest (dictSet col (.vint n) r)
      | none =>
        let p := xmlChildren path col rest r
        (p.1, ⟨path, col, .vstr t, none⟩ :: p.2)
    else xmlChildren path col rest r

/-- The object loop of read_xml, accumulating one single row and one
source column set across the whole document. -/
def read_xml_aux (path : String) : List (String × List String) → ETL → Row → List String → ETL × List Diag
  | [], st, r, cc =>
    ({ st with rows := st.rows ++ [r], common_columns := st.common_columns ++ [cc] }, [])
  | (col, children) :: rest, st, r, cc =>
    let p := xmlChildren path col children r
    let q := read_xml_aux path rest { st with columns := sadd st.columns col } p.1 (sadd cc col)
    (q.1, p.2 ++ q.2)

/-- Method read_xml: the input is the list of object elements, each a name
with its child text nodes. -/
def read_xml (st : ETL) (path : String) (objects : List (String × List String)) : ETL × List Diag :=
  read_xml_aux path objects st [] []

/-- One ingestion call with its input. -/
inductive Op where
  | csv (path : String) (input : List (List String))
  | json (path : String) (fields : List (List (String × Value)))
  | xml (path : String) (objects : List (String × List String))
  deriving DecidableEq, Repr

/-- Apply one ingestion call. -/
def applyOp (st : ETL) : Op → ETL × List Diag
  | .csv path input => read_csv st path input
  | .json path fields => read_json st path fields
  | .xml path objects => read_xml st path objects

/-- Run a sequence of ingestion calls from the initialized state. -/
def runOps (ops : List Op) : ETL :=
  ops.foldl (fun st op => (applyOp st op).1) ETL.init

/-- Map a fallible function over a list, failing when any element fails
(the Option traversal, written structurally). -/
def omap (f : α → Option β) : List α → Option (List β)
  | [] => some []
  | a :: as =>
    match f a with
    | none => none
    | some b =>
      match omap f as with
      | none => none
      | some bs => some (b :: bs)

/-- The numeric sort key of a column name: Python int(name[1:]). -/
def suffixKey (s : String) : Option Int :=
  pyIntOfString (s.drop 1)

/-- Stable insertion into a key-decorated list, placing the new pair
before the first strictly larger key. -/
def insertK (p : String × Int) : List (String × Int) → List (String × Int)
  | [] => [p]
  | q :: qs => if p.2 ≤ q.2 then p :: q :: qs else q :: insertK p qs

/-- Stable sort of a key-decorated list ascending by key. -/
def sortK : List (String × Int) → List (String × Int)
  | [] => []
  | p :: ps => insertK p (sortK ps)

/-- Python sorted(names, key=lambda y: int(y[1:])): decorate every name
with its parsed suffix (ValueError if any fails), then stable sort by
the key. -/
def pySortBySuffix (l : List String) : Option (List String) :=
  (omap (fun s => (suffixKey s).map (fun k => (s, k))) l).map
    (fun ps => (sortK ps).map Prod.fst)

/-- Property d_m_sorted_columns: partition the column universe into D-
and M-prefixed names and sort each by numeric suffix; none models the
ValueError escaping from a malformed suffix. -/
def d_m_sorted_columns (st : ETL) : Option (List String × List String) := do
  let d ← pySortBySuffix (st.columns.filter (fun c => c.front = 'D'))
  let m ← pySortBySuffix (st.columns.filter (fun c => c.front = 'M'))
  pure (d, m)

/-- The intersection of a nonempty family of source column sets, ordered
by the first set (Python set iteration order is unspecified; the order
is washed out by the suffix sort except on key ties). -/
def interAll : List (List String) → List String
  | [] => []
  | s :: rest => s.filter (fun x => rest.all (fun t => x ∈ t))

/-- Property d_m_sorted_common_columns: like d_m_sorted_columns but over
the intersection of all source column sets; two empty tuples when no
source was ever ingested. -/
def d_m_sorted_common_columns (st : ETL) : Option (List String × List String) :=
  if st.common_columns.isEmpty then some ([], [])
  else do
    let d ← pySortBySuffix ((interAll st.common_columns).filter (fun c => c.front = 'D'))
    let m ← pySortBySuffix ((interAll st.common_columns).filter (fun c => c.front = 'M'))
    pure (d, m)

/-- Resolve the column lists under the chosen policy, as both writers do:
common = true selects the intersection, false the union. -/
def resolveCols (st : ETL) (common : Bool) : Option (List String × List String) :=
  if common then d_m_sorted_common_columns st else d_m_sorted_columns st

/-- Python str() as applied by the csv writer to a cell value. -/
def strOfValue : Value → String
  | .vstr s => s
  | .vint n => toString n

/-- Python < on two characters: code point order. -/
def charLt (a b : Char) : Bool :=
  a.toNat < b.toNat

/-- Python < on two character lists: lexicographic in code point order. -/
def strLtChars : List Char → List Char → Bool
  | [], [] => false
  | [], _ :: _ => true
  | _ :: _, [] => false
  | a :: as, b :: bs => if a = b then strLtChars as bs else charLt a b

/-- Python < on two strings: lexicographic in code point order. -/
def pyStrLt (a b : String) : Bool :=
  strLtChars a.toList b.toList

/-- Python < on two values: defined within one type (code point order on
strings, numeric order on integers), TypeError across types. -/
def vlt : Value → Value → Option Bool
  | .vstr a, .vstr b => some (pyStrLt a b)
  | .vint a, .vint b => some (decide (a < b))
  | _, _ => none

/-- Python <= on two values, derived from < by exchange and negation. -/
def vle (a b : Value) : Option Bool :=
  (vlt b a).map (fun x => !x)

/-- Python < on two group-key tuples: lexicographic, skipping the equal
prefix (equality across types is False, not an error), then comparing
the first differing pair with vlt. -/
def keyLt : List Value → List Value → Option Bool
  | [], [] => some false
  | [], _ :: _ => some true
  | _ :: _, [] => some false
  | a :: as, b :: bs => if a = b then keyLt as bs else vlt a b

/-- Python <= on two group-key tuples. -/
def keyLe (a b : List Value) : Option Bool :=
  (keyLt b a).map (fun x => !x)

/-- Stable insertion with a fallible comparator, placing the new element
before the first one it compares less-or-equal to; none propagates a
TypeError from an attempted comparison. -/
def insOptBy (le : α → α → Option Bool) (x : α) : List α → Option (List α)
  | [] => some [x]
  | y :: ys =>
    match le x y with
    | none => none
    | some true => some (x :: y :: ys)
    | some false => (insOptBy le x ys).map (fun zs => y :: zs)

/-- Stable sort with a fallible comparator (Python sorted on values whose
comparison can raise TypeError; on fully comparable inputs this agrees
with Python, on partially comparable inputs Python's outcome depends on
unspecified comparison order and none is returned conservatively). -/
def sortOptBy (le : α → α → Option Bool) : List α → Option (List α)
  | [] => some []
  | x :: xs =>
    match sortOptBy le xs with
    | none => none
    | some ys => insOptBy le x ys

/-- Method write_tsv_basic, producing the written records as cell lists:
the header of resolved columns, then every row rendered over those
columns with the placeholder for absent values, sorted ascending by the
value at the fixed key D1 (KeyError if a row lacks it). -/
def write_tsv_basic (st : ETL) (common : Bool) : Option (List (List String)) := do
  let dm ← resolveCols st common
  let cols := dm.1 ++ dm.2
  let decorated ← omap (fun r => (alookup "D1" r).map (fun v => (r, v))) st.rows
  let srows ← sortOptBy (fun p q => vle p.2 q.2) decorated
  pure ([cols] ++ srows.map (fun p => cols.map (fun c => strOfValue (rowGet p.1 c (.vstr "-")))))

/-- Add one per-row measure vector into an accumulator vector; Python +
of an integer accumulator cell and a row value, TypeError when the row
value is a string. -/
def addVec (acc : List Int) (v : List Value) : Option (List Int) :=
  omap (fun p =>
    match p.2 with
    | .vint b => some (p.1 + b)
    | .vstr _ => none) (acc.zip v)

/-- Group-key lookup in the aggregation dict. -/
def alookupK (k : List Value) : List (List Value × List Int) → Option (List Int)
  | [] => none
  | (k2, v) :: r => if k2 = k then some v else alookupK k r

/-- Group-key assignment in the aggregation dict, in insertion order. -/
def aupdateK (k : List Value) (v : List Int) : List (List Value × List Int) → List (List Value × List Int)
  | [] => [(k, v)]
  | (k2, w) :: r => if k2 = k then (k2, v) :: r else (k2, w) :: aupdateK k v r

/-- The group key of a row: its value at each resolved dimension column,
with the placeholder for absent values. -/
def rowKeyOf (dcols : List String) (r : Row) : List Value :=
  dcols.map (fun c => rowGet r c (.vstr "-"))

/-- The per-row measure vector: the row's value at each resolved measure
column, defaulting to integer 0. -/
def rowVecOf (mcols : List String) (r : Row) : List Value :=
  mcols.map (fun c => rowGet r c (.vint 0))

/-- Method get_data_advanced: fold the rows into a dict from group key to
running sum vector, starting each new key from the zero vector; none
models the TypeError from summing a string-valued measure cell. -/
def get_data_advanced (dcols mcols : List String) : List Row → List (List Value × List Int) → Option (List (List Value × List Int))
  | [], data => some data
  | r :: rs, data =>
    let key := rowKeyOf dcols r
    let v := rowVecOf mcols r
    let cur := (alookupK key data).getD (mcols.map (fun _ => 0))
    match addVec cur v with
    | none => none
    | some nv => get_data_advanced dcols mcols rs (aupdateK key nv data)

/-- The measure-column renaming of the advanced header: insert S after
the first character, before the numeric suffix. -/
def renameM (s : String) : String :=
  s.take 1 ++ "S" ++ s.drop 1

/-- Method write_tsv_advanced, producing the written records as cell
lists: the renamed header, then one line per group key in ascending key
order, each the key values followed by the summed measures. -/
def write_tsv_advanced (st : ETL) (common : Bool) : Option (List (List String)) := do
  let dm ← resolveCols st common
  let hdr := dm.1 ++ dm.2.map renameM
  let data ← get_data_advanced dm.1 dm.2 st.rows []
  let ks ← sortOptBy keyLe (data.map Prod.fst)
  pure ([hdr] ++ ks.map (fun k =>
    k.map strOfValue ++ ((alookupK k data).getD []).map toString))

/-! ### Basic lemmas about the dict and set models -/

theorem mem_sadd {s : List String} {x y : String} :
    x ∈ sadd s y ↔ x ∈ s ∨ x = y := by
  unfold sadd
  split
  · constructor
    · exact Or.inl
    · rintro (h | rfl) <;> assumption
  · simp [or_comm]

theorem nodup_sadd {s : List String} (h : s.Nodup) (y : String) : (sadd s y).Nodup := by
  unfold sadd
  split
  · exact h
  · simpa [List.nodup_append] using ⟨h, by assumption⟩

theorem mem_saddAll {xs : List String} : ∀ {s : List String} {x : String},
    x ∈ saddAll s xs ↔ x ∈ s ∨ x ∈ xs := by
  induction xs with
  | nil => simp [saddAll]
  | cons a as ih =>
    intro s x
    show x ∈ saddAll (sadd s a) as ↔ _
    rw [ih, mem_sadd]
    simp only [List.mem_cons]
    tauto

theorem nodup_saddAll {xs : List String} : ∀ {s : List String}, s.Nodup → (saddAll s xs).Nodup := by
  induction xs with
  | nil => intro s h; exact h
  | cons a as ih => intro s h; exact ih (nodup_sadd h a)

theorem saddAll_append (s : List String) (a b : List String) :
    saddAll s (a ++ b) = saddAll (saddAll s a) b := by
  unfold saddAll
  rw [List.foldl_append]

theorem mem_slist {xs : List String} {x : String} : x ∈ slist xs ↔ x ∈ xs := by
  unfold slist; rw [mem_saddAll]; simp

theorem nodup_slist (xs : List String) : (slist xs).Nodup :=
  nodup_saddAll List.nodup_nil

theorem alookup_dictSet_self (k : String) (v : Value) (r : Row) :
    alookup k (dictSet k v r) = some v := by
  induction r with
  | nil => simp [dictSet, alookup]
  | cons p rest ih =>
    by_cases h : p.1 = k
    · simp [dictSet, alookup, h]
    · simp [dictSet, alookup, h, ih]

theorem alookup_dictSet_other {k k2 : String} (h : k ≠ k2) (v : Value) (r : Row) :
    alookup k2 (dictSet k v r) = alookup k2 r := by
  induction r with
  | nil => simp [dictSet, alookup, h]
  | cons p rest ih =>
    by_cases h2 : p.1 = k
    · simp [dictSet, alookup, h2, h]
    · simp [dictSet, alookup, h2, ih]

theorem mem_dictSet {p : String × Value} {k : String} {v : Value} {r : Row} :
    p ∈ dictSet k v r → p = (k, v) ∨ p ∈ r := by
  induction r with
  | nil => simp [dictSet]
  | cons q rest ih =>
    by_cases h : q.1 = k
    · simp only [dictSet, if_pos h, List.mem_cons]
      rintro (rfl | h2)
      · exact Or.inl (by rw [h])
      · exact Or.inr (Or.inr h2)
    · simp only [dictSet, if_neg h, List.mem_cons]
      rintro (rfl | h2)
      · exact Or.inr (Or.inl rfl)
      · rcases ih h2 with h3 | h3
        · exact Or.inl h3
        · exact Or.inr (Or.inr h3)

/-! ### Lemmas about the fallible traversal omap -/

theorem omap_isSome_iff {f : α → Option β} {l : List α} :
    (omap f l).isSome ↔ ∀ a ∈ l, (f a).isSome := by
  induction l with
  | nil => simp [omap]
  | cons a as ih =>
    simp only [omap, List.mem_cons, forall_eq_or_imp]
    cases hf : f a with
    | none => simp [hf]
    | some b =>
      cases ho : omap f as with
      | none => rw [ho] at ih; simp [hf, ← ih]
      | some bs => rw [ho] at ih; simp [hf, ← ih]

theorem omap_decorate_eq {g : α → Option γ} {l : List α} {ps : List (α × γ)} {d : γ}
    (h : omap (fun a => (g a).map (fun x => (a, x))) l = some ps) :
    ps = l.map (fun a => (a, (g a).getD d)) := by
  induction l generalizing ps with
  | nil =>
    simp only [omap, Option.some.injEq] at h
    simp [← h]
  | cons a as ih =>
    simp only [omap] at h
    cases hg : g a with
    | none => simp [hg] at h
    | some x =>
      simp only [hg, Option.map_some'] at h
      cases ho : omap (fun a => (g a).map (fun x => (a, x))) as with
      | none => simp [ho] at h
      | some qs =>
        simp only [ho, Option.some.injEq] at h
        subst h
        simp [hg, ih ho]

theorem omap_decorate_fst {g : α → Option γ} {l : List α} {ps : List (α × γ)}
    (h : omap (fun a => (g a).map (fun x => (a, x))) l = some ps) :
    ps.map Prod.fst = l := by
  induction l generalizing ps with
  | nil =>
    simp only [omap, Option.some.injEq] at h
    simp [← h]
  | cons a as ih =>
    simp only [omap] at h
    cases hg : g a with
    | none => simp [hg] at h
    | some x =>
      simp only [hg, Option.map_some'] at h
      cases ho : omap (fun a => (g a).map (fun x => (a, x))) as with
      | none => simp [ho] at h
      | some qs =>
        simp only [ho, Option.some.injEq] at h
        subst h
        simp [ih ho]

theorem omap_decorate_lookup {g : α → Option γ} {l : List α} {ps : List (α × γ)}
    (h : omap (fun a => (g a).map (fun x => (a, x))) l = some ps) :
    ∀ p ∈ ps, g p.1 = some p.2 := by
  induction l generalizing ps with
  | nil =>
    simp only [omap, Option.some.injEq] at h
    simp [← h]
  | cons a as ih =>
    simp only [omap] at h
    cases hg : g a with
    | none => simp [hg] at h
    | some x =>
      simp only [hg, Option.map_some'] at h
      cases ho : omap (fun a => (g a).map (fun x => (a, x))) as with
      | none => simp [ho] at h
      | some qs =>
        simp only [ho, Option.some.injEq] at h
        subst h
        rintro p hp
        rcases List.mem_cons.mp hp with rfl | hp2
        · exact hg
        · exact ih ho p hp2

/-! ### Lemmas about the stable decorated sort -/

theorem insertK_perm (p : String × Int) (l : List (String × Int)) :
    (insertK p l).Perm (p :: l) := by
  induction l with
  | nil => exact List.Perm.refl _
  | cons q qs ih =>
    unfold insertK
    split
    · exact List.Perm.refl _
    · exact (List.Perm.cons q ih).trans (List.Perm.swap p q qs)

theorem sortK_perm (l : List (String × Int)) : (sortK l).Perm l := by
  induction l with
  | nil => exact List.Perm.refl _
  | cons p ps ih => exact (insertK_perm p (sortK ps)).trans (List.Perm.cons p ih)

theorem insertK_pairwise {p : String × Int} {l : List (String × Int)}
    (h : l.Pairwise (fun a b => a.2 ≤ b.2)) :
    (insertK p l).Pairwise (fun a b => a.2 ≤ b.2) := by
  induction l with
  | nil => simp [insertK]
  | cons q qs ih =>
    rcases List.pairwise_cons.mp h with ⟨hq, hqs⟩
    unfold insertK
    split
    · next hle =>
      refine List.pairwise_cons.mpr ⟨?_, h⟩
      intro b hb
      rcases List.mem_cons.mp hb with rfl | hb2
      · exact hle
      · exact le_trans hle (hq b hb2)
    · next hle =>
      refine List.pairwise_cons.mpr ⟨?_, ih hqs⟩
      intro b hb
      rcases (insertK_perm p qs).mem_iff.mp hb with h2
      rcases List.mem_cons.mp h2 with rfl | hb2
      · exact le_of_not_le hle
      · exact hq b hb2

theorem sortK_pairwise (l : List (String × Int)) :
    (sortK l).Pairwise (fun a b => a.2 ≤ b.2) := by
  induction l with
  | nil => simp [sortK]
  | cons p ps ih => exact insertK_pairwise ih

/-- Two lists that are permutations of each other and both pairwise
ordered by a relation antisymmetric on their elements are equal. -/
theorem eq_of_perm_of_pairwise {R : α → α → Prop} {l1 l2 : List α}
    (hp : l1.Perm l2) (h1 : l1.Pairwise R) (h2 : l2.Pairwise R)
    (anti : ∀ a ∈ l1, ∀ b ∈ l1, R a b → R b a → a = b) : l1 = l2 := by
  induction l1 generalizing l2 with
  | nil => exact (hp.nil_eq).symm ▸ rfl
  | cons a t1 ih =>
    cases l2 with
    | nil => exact absurd hp.symm.nil_eq (by simp)
    | cons b t2 =>
      have hab : a = b := by
        by_contra hne
        have ha2 : a ∈ b :: t2 := hp.subset (List.mem_cons_self _ _)
        have hat2 : a ∈ t2 := by
          rcases List.mem_cons.mp ha2 with h | h
          · exact absurd h hne
          · exact h
        have hb1 : b ∈ a :: t1 := hp.symm.subset (List.mem_cons_self _ _)
        have hbt1 : b ∈ t1 := by
          rcases List.mem_cons.mp hb1 with h | h
          · exact absurd h.symm hne
          · exact h
        have hRab : R a b := (List.pairwise_cons.mp h1).1 b hbt1
        have hRba : R b a := (List.pairwise_cons.mp h2).1 a hat2
        exact hne (anti a (List.mem_cons_self _ _) b (List.mem_cons_of_mem _ hbt1) hRab hRba)
      subst hab
      have hp2 : t1.Perm t2 := hp.cons_inv
      have := ih hp2 (List.pairwise_cons.mp h1).2 (List.pairwise_cons.mp h2).2
        (fun x hx y hy => anti x (List.mem_cons_of_mem _ hx) y (List.mem_cons_of_mem _ hy))
      rw [this]

theorem pySortBySuffix_mem {l r : List String} (h : pySortBySuffix l = some r) {x : String} :
    x ∈ r ↔ x ∈ l := by
  unfold pySortBySuffix at h
  cases ho : omap (fun s => (suffixKey s).map (fun k => (s, k))) l with
  | none => rw [ho] at h; simp at h
  | some ps =>
    rw [ho] at h
    simp only [Option.map_some', Option.some.injEq] at h
    subst h
    rw [List.mem_map]
    constructor
    · rintro ⟨p, hp, rfl⟩
      have hp2 : p ∈ ps := (sortK_perm ps).subset hp
      have := omap_decorate_fst ho
      rw [← this]
      exact List.mem_map_of_mem _ hp2
    · intro hx
      rw [← omap_decorate_fst ho, List.mem_map] at hx
      rcases hx with ⟨p, hp, rfl⟩
      exact ⟨p, (sortK_perm ps).symm.subset hp, rfl⟩

theorem oisSome_map {f : γ → δ} {x : Option γ} : (x.map f).isSome = x.isSome := by
  cases x <;> rfl

theorem pySortBySuffix_isSome {l : List String} :
    (pySortBySuffix l).isSome ↔ ∀ s ∈ l, (suffixKey s).isSome := by
  unfold pySortBySuffix
  rw [oisSome_map, omap_isSome_iff]
  constructor
  · intro h s hs
    have := h s hs
    rwa [oisSome_map] at this
  · intro h s hs
    rw [oisSome_map]
    exact h s hs

theorem pySortBySuffix_eq_of_perm {l1 l2 r1 r2 : List String}
    (hperm : l1.Perm l2)
    (hinj : ∀ s ∈ l1, ∀ t ∈ l1, s ≠ t → suffixKey s ≠ suffixKey t)
    (h1 : pySortBySuffix l1 = some r1) (h2 : pySortBySuffix l2 = some r2) :
    r1 = r2 := by
  unfold pySortBySuffix at h1 h2
  cases ho1 : omap (fun s => (suffixKey s).map (fun k => (s, k))) l1 with
  | none => rw [ho1] at h1; simp at h1
  | some ps1 =>
    cases ho2 : omap (fun s => (suffixKey s).map (fun k => (s, k))) l2 with
    | none => rw [ho2] at h2; simp at h2
    | some ps2 =>
      rw [ho1] at h1
      rw [ho2] at h2
      simp only [Option.map_some', Option.some.injEq] at h1 h2
      subst h1
      subst h2
      have he1 : ps1 = l1.map (fun s => (s, (suffixKey s).getD 0)) := omap_decorate_eq ho1
      have he2 : ps2 = l2.map (fun s => (s, (suffixKey s).getD 0)) := omap_decorate_eq ho2
      have hperm2 : ps1.Perm ps2 := by
        rw [he1, he2]
        exact hperm.map _
      have hkey : ∀ p ∈ ps1, suffixKey p.1 = some p.2 := omap_decorate_lookup ho1
      have hmem1 : ∀ p ∈ ps1, p.1 ∈ l1 := by
        intro p hp
        have := omap_decorate_fst ho1
        rw [← this]
        exact List.mem_map_of_mem _ hp
      have hsorteq : sortK ps1 = sortK ps2 := by
        apply eq_of_perm_of_pairwise
          (((sortK_perm ps1).trans hperm2).trans (sortK_perm ps2).symm)
          (sortK_pairwise ps1) (sortK_pairwise ps2)
        intro a ha b hb hRab hRba
        have ha2 : a ∈ ps1 := (sortK_perm ps1).subset ha
        have hb2 : b ∈ ps1 := (sortK_perm ps1).subset hb
        have hk : a.2 = b.2 := le_antisymm hRab hRba
        by_cases hst : a.1 = b.1
        · have hka := hkey a ha2
          have hkb := hkey b hb2
          rcases a with ⟨s, u⟩
          rcases b with ⟨t, w⟩
          simp only at hst hk
          subst hst
          subst hk
          rfl
        · exact absurd (by rw [hkey a ha2, hkey b hb2, hk])
            (hinj a.1 (hmem1 a ha2) b.1 (hmem1 b hb2) hst)
      rw [hsorteq]

/-! ### Lemmas about the fallible-comparator stable sort -/

theorem insOptBy_perm {le : α → α → Option Bool} {x : α} {l l2 : List α}
    (h : insOptBy le x l = some l2) : l2.Perm (x :: l) := by
  induction l generalizing l2 with
  | nil =>
    simp only [insOptBy, Option.some.injEq] at h
    rw [← h]
  | cons y ys ih =>
    simp only [insOptBy] at h
    cases hle : le x y with
    | none => rw [hle] at h; simp at h
    | some b =>
      rw [hle] at h
      cases b with
      | true =>
        simp only [Option.some.injEq] at h
        rw [← h]
      | false =>
        cases hi : insOptBy le x ys with
        | none => rw [hi] at h; simp at h
        | some zs =>
          rw [hi] at h
          simp only [Option.map_some', Option.some.injEq] at h
          rw [← h]
          exact (List.Perm.cons y (ih hi)).trans (List.Perm.swap x y ys)

theorem sortOptBy_perm {le : α → α → Option Bool} {l l2 : List α}
    (h : sortOptBy le l = some l2) : l2.Perm l := by
  induction l generalizing l2 with
  | nil =>
    simp only [sortOptBy, Option.some.injEq] at h
    rw [← h]
  | cons x xs ih =>
    simp only [sortOptBy] at h
    cases hs : sortOptBy le xs with
    | none => rw [hs] at h; simp at h
    | some ys =>
      simp only [hs] at h
      exact (insOptBy_perm h).trans (List.Perm.cons x (ih hs))

theorem insOptBy_chain {le : α → α → Option Bool}
    (asym : ∀ x y, le x y = some false → le y x = some true)
    {x : α} {l l2 : List α}
    (hc : l.Chain' (fun a b => le a b = some true))
    (h : insOptBy le x l = some l2) :
    l2.Chain' (fun a b => le a b = some true) := by
  induction l generalizing l2 with
  | nil =>
    simp only [insOptBy, Option.some.injEq] at h
    rw [← h]
    simp
  | cons y ys ih =>
    simp only [insOptBy] at h
    cases hle : le x y with
    | none => rw [hle] at h; simp at h
    | some b =>
      rw [hle] at h
      cases b with
      | true =>
        simp only [Option.some.injEq] at h
        rw [← h]
        exact List.Chain'.cons hle hc
      | false =>
        cases hi : insOptBy le x ys with
        | none => rw [hi] at h; simp at h
        | some zs =>
          rw [hi] at h
          simp only [Option.map_some', Option.some.injEq] at h
          rw [← h]
          have hzs : zs.Chain' (fun a b => le a b = some true) :=
            ih (List.Chain'.tail hc) hi
          rcases ys with _ | ⟨z, zs2⟩
          · simp only [insOptBy, Option.some.injEq] at hi
            rw [← hi]
            exact List.chain'_pair.mpr (asym x y hle)
          · simp only [insOptBy] at hi
            cases hle2 : le x z with
            | none => rw [hle2] at hi; simp at hi
            | some b2 =>
              rw [hle2] at hi
              cases b2 with
              | true =>
                simp only [Option.some.injEq] at hi
                rw [← hi]
                exact List.Chain'.cons (asym x y hle) (List.Chain'.cons hle2 (List.Chain'.tail hc))
              | false =>
                cases hi2 : insOptBy le x zs2 with
                | none => rw [hi2] at hi; simp at hi
                | some ws =>
                  rw [hi2] at hi
                  simp only [Option.map_some', Option.some.injEq] at hi
                  rw [← hi]
                  rw [← hi] at hzs
                  exact List.Chain'.cons (List.chain'_cons.mp hc).1 hzs

theorem sortOptBy_chain {le : α → α → Option Bool}
    (asym : ∀ x y, le x y = some false → le y x = some true)
    {l l2 : List α} (h : sortOptBy le l = some l2) :
    l2.Chain' (fun a b => le a b = some true) := by
  induction l generalizing l2 with
  | nil =>
    simp only [sortOptBy, Option.some.injEq] at h
    rw [← h]
    simp
  | cons x xs ih =>
    simp only [sortOptBy] at h
    cases hs : sortOptBy le xs with
    | none => rw [hs] at h; simp at h
    | some ys =>
      simp only [hs] at h
      exact insOptBy_chain asym (ih hs) h

theorem insOptBy_isSome {le : α → α → Option Bool} {x : α} {l : List α}
    (h : ∀ y ∈ l, (le x y).isSome) : (insOptBy le x l).isSome := by
  induction l with
  | nil => simp [insOptBy]
  | cons y ys ih =>
    simp only [insOptBy]
    cases hle : le x y with
    | none =>
      have := h y (List.mem_cons_self _ _)
      rw [hle] at this
      simp at this
    | some b =>
      cases b with
      | true => simp
      | false =>
        simp only [oisSome_map]
        exact ih (fun z hz => h z (List.mem_cons_of_mem _ hz))

theorem sortOptBy_isSome {le : α → α → Option Bool} {l : List α}
    (h : ∀ x ∈ l, ∀ y ∈ l, (le x y).isSome) : (sortOptBy le l).isSome := by
  induction l with
  | nil => simp [sortOptBy]
  | cons x xs ih =>
    simp only [sortOptBy]
    cases hs : sortOptBy le xs with
    | none =>
      have := ih (fun a ha b hb =>
        h a (List.mem_cons_of_mem _ ha) b (List.mem_cons_of_mem _ hb))
      rw [hs] at this
      simp at this
    | some ys =>
      simp only [hs]
      apply insOptBy_isSome
      intro y hy
      have hy2 : y ∈ xs := (sortOptBy_perm hs).subset hy
      exact h x (List.mem_cons_self _ _) y (List.mem_cons_of_mem _ hy2)

/-! ### Decomposition of the readers into per-call contributions -/

theorem csvFields_fst_indep (p1 p2 : String) (l1 l2 : Nat) :
    ∀ (ps : List (String × String)) (r : Row),
    (csvFields p1 l1 ps r).1 = (csvFields p2 l2 ps r).1 := by
  intro ps
  induction ps with
  | nil => intro r; rfl
  | cons q rest ih =>
    intro r
    rcases q with ⟨k, v⟩
    simp only [csvFields]
    by_cases hd : k.front = 'D'
    · simp only [if_pos hd]; exact ih _
    · simp only [if_neg hd]
      by_cases hm : k.front = 'M'
      · simp only [if_pos hm]
        cases pyIntOfString v with
        | none => exact ih r
        | some n => exact ih _
      · simp only [if_neg hm]; exact ih r

theorem jsonFields_fst_indep (p1 p2 : String) :
    ∀ (f : List (String × Value)) (r : Row),
    (jsonFields p1 f r).1 = (jsonFields p2 f r).1 := by
  intro f
  induction f with
  | nil => intro r; rfl
  | cons q rest ih =>
    intro r
    rcases q with ⟨k, v⟩
    simp only [jsonFields]
    by_cases hm : k.front = 'M'
    · simp only [if_pos hm]
      cases pyInt v with
      | none => exact ih r
      | some n => exact ih _
    · simp only [if_neg hm]; exact ih _

theorem xmlChildren_fst_indep (p1 p2 col : String) :
    ∀ (children : List String) (r : Row),
    (xmlChildren p1 col children r).1 = (xmlChildren p2 col children r).1 := by
  intro children
  induction children with
  | nil => intro r; rfl
  | cons t rest ih =>
    intro r
    simp only [xmlChildren]
    by_cases hd : col.front = 'D'
    · simp only [if_pos hd]; exact ih _
    · simp only [if_neg hd]
      by_cases hm : col.front = 'M'
      · simp only [if_pos hm]
        cases pyIntOfString t with
        | none => exact ih r
        | some n => exact ih _
      · simp only [if_neg hm]; exact ih r

/-- The rows a read_csv call appends, as a function of the input alone. -/
def csvDeltaRows (cols : List String) : List (List String) → List Row
  | [] => []
  | rec :: rest =>
    if cols.isEmpty then csvDeltaRows rec rest
    else (csvFields "" 0 (cols.zip rec) []).1 :: csvDeltaRows cols rest

/-- The names a read_csv call adds to the column universe. -/
def csvDeltaCols (cols : List String) : List (List String) → List String
  | [] => []
  | rec :: rest =>
    if cols.isEmpty then rec ++ csvDeltaCols rec rest else csvDeltaCols cols rest

/-- The source column sets a read_csv call records. -/
def csvDeltaCommon (cols : List String) : List (List String) → List (List String)
  | [] => []
  | rec :: rest =>
    if cols.isEmpty then slist rec :: csvDeltaCommon rec rest
    else csvDeltaCommon cols rest

theorem read_csv_aux_fst (path : String) (input : List (List String)) :
    ∀ (st : ETL) (cols : List String) (n : Nat),
    (read_csv_aux path input st cols n).1 =
      ⟨st.rows ++ csvDeltaRows cols input,
       saddAll st.columns (csvDeltaCols cols input),
       st.common_columns ++ csvDeltaCommon cols input⟩ := by
  induction input with
  | nil =>
    intro st cols n
    simp [read_csv_aux, csvDeltaRows, csvDeltaCols, csvDeltaCommon, saddAll]
  | cons rec rest ih =>
    intro st cols n
    by_cases hc : cols.isEmpty
    · simp only [read_csv_aux, if_pos hc, csvDeltaRows, csvDeltaCols, csvDeltaCommon]
      rw [ih]
      simp [saddAll_append, List.append_assoc]
    · simp only [read_csv_aux, if_neg hc, csvDeltaRows, csvDeltaCols, csvDeltaCommon]
      rw [ih]
      rw [csvFields_fst_indep path "" (n + 1) 0]
      simp [ETL.mk.injEq]

/-- The rows a read_json call appends. -/
def jsonDeltaRows (fields : List (List (String × Value))) : List Row :=
  fields.map (fun f => (jsonFields "" f []).1)

/-- Every key of every field of a read_json call, in order. -/
def jsonKeys (fields : List (List (String × Value))) : List String :=
  (fields.map (fun f => f.map Prod.fst)).flatten

theorem read_json_aux_fst (path : String) (fields : List (List (String × Value))) :
    ∀ (st : ETL) (cc : List String),
    (read_json_aux path fields st cc).1 =
      ⟨st.rows ++ jsonDeltaRows fields,
       saddAll st.columns (jsonKeys fields),
       st.common_columns ++ [saddAll cc (jsonKeys fields)]⟩ := by
  induction fields with
  | nil =>
    intro st cc
    simp [read_json_aux, jsonDeltaRows, jsonKeys, saddAll]
  | cons f rest ih =>
    intro st cc
    simp only [read_json_aux]
    rw [ih]
    simp only [ETL.mk.injEq, jsonDeltaRows, jsonKeys, List.map_cons, List.flatten_cons]
    refine ⟨?_, ?_, ?_⟩
    · rw [jsonFields_fst_indep path ""]
      simp [jsonDeltaRows]
    · rw [saddAll_append]
    · rw [saddAll_append]

/-- The single row a read_xml call assembles, folded over its objects. -/
def xmlRowAux : List (String × List String) → Row → Row
  | [], r => r
  | obj :: rest, r => xmlRowAux rest (xmlChildren "" obj.1 obj.2 r).1

theorem read_xml_aux_fst (path : String) (objects : List (String × List String)) :
    ∀ (st : ETL) (r : Row) (cc : List String),
    (read_xml_aux path objects st r cc).1 =
      ⟨st.rows ++ [xmlRowAux objects r],
       saddAll st.columns (objects.map Prod.fst),
       st.common_columns ++ [saddAll cc (objects.map Prod.fst)]⟩ := by
  induction objects with
  | nil =>
    intro st r cc
    simp [read_xml_aux, xmlRowAux, saddAll]
  | cons obj rest ih =>
    intro st r cc
    rcases obj with ⟨col, children⟩
    simp only [read_xml_aux]
    rw [ih]
    simp only [ETL.mk.injEq, xmlRowAux, List.map_cons]
    refine ⟨?_, rfl, rfl⟩
    rw [xmlChildren_fst_indep path "" col]

/-- The rows one ingestion call appends. -/
def opRows : Op → List Row
  | .csv _ input => csvDeltaRows [] input
  | .json _ fields => jsonDeltaRows fields
  | .xml _ objects => [xmlRowAux objects []]

/-- The names one ingestion call adds to the column universe. -/
def opCols : Op → List String
  | .csv _ input => csvDeltaCols [] input
  | .json _ fields => jsonKeys fields
  | .xml _ objects => objects.map Prod.fst

/-- The source column sets one ingestion call records. -/
def opCommon : Op → List (List String)
  | .csv _ input => csvDeltaCommon [] input
  | .json _ fields => [slist (jsonKeys fields)]
  | .xml _ objects => [slist (objects.map Prod.fst)]

theorem applyOp_fst (st : ETL) (op : Op) :
    (applyOp st op).1 =
      ⟨st.rows ++ opRows op, saddAll st.columns (opCols op),
       st.common_columns ++ opCommon op⟩ := by
  cases op with
  | csv path input =>
    simp only [applyOp, read_csv, opRows, opCols, opCommon]
    rw [read_csv_aux_fst]
  | json path fields =>
    simp only [applyOp, read_json, opRows, opCols, opCommon]
    rw [read_json_aux_fst]
    rfl
  | xml path objects =>
    simp only [applyOp, read_xml, opRows, opCols, opCommon]
    rw [read_xml_aux_fst]
    rfl

theorem runOps_aux (ops : List Op) :
    ∀ st : ETL,
    ops.foldl (fun st op => (applyOp st op).1) st =
      ⟨st.rows ++ (ops.map opRows).flatten,
       saddAll st.columns (ops.map opCols).flatten,
       st.common_columns ++ (ops.map opCommon).flatten⟩ := by
  induction ops with
  | nil => intro st; simp [saddAll]
  | cons op rest ih =>
    intro st
    simp only [List.foldl_cons, List.map_cons, List.flatten_cons]
    rw [ih, applyOp_fst]
    simp [saddAll_append, List.append_assoc]

theorem runOps_rows (ops : List Op) : (runOps ops).rows = (ops.map opRows).flatten := by
  unfold runOps
  rw [runOps_aux]
  simp [ETL.init]

theorem runOps_common (ops : List Op) :
    (runOps ops).common_columns = (ops.map opCommon).flatten := by
  unfold runOps
  rw [runOps_aux]
  simp [ETL.init]

theorem runOps_columns_mem (ops : List Op) (x : String) :
    x ∈ (runOps ops).columns ↔ ∃ op ∈ ops, x ∈ opCols op := by
  unfold runOps
  rw [runOps_aux]
  show x ∈ saddAll ETL.init.columns (ops.map opCols).flatten ↔ _
  rw [mem_saddAll]
  simp only [ETL.init, List.mem_flatten, List.mem_map]
  constructor
  · rintro (h | ⟨l, ⟨op, hop, rfl⟩, hx⟩)
    · simp at h
    · exact ⟨op, hop, hx⟩
  · rintro ⟨op, hop, hx⟩
    exact Or.inr ⟨opCols op, ⟨op, hop, rfl⟩, hx⟩

/-! ### Invariants of reachable states -/

theorem csvDeltaCommon_subset (input : List (List String)) :
    ∀ cols, ∀ s ∈ csvDeltaCommon cols input, ∀ x ∈ s, x ∈ csvDeltaCols cols input := by
  induction input with
  | nil => intro cols s hs; simp [csvDeltaCommon] at hs
  | cons rec rest ih =>
    intro cols s hs x hx
    by_cases hc : cols.isEmpty
    · simp only [csvDeltaCommon, if_pos hc, List.mem_cons] at hs
      simp only [csvDeltaCols, if_pos hc, List.mem_append]
      rcases hs with rfl | hs2
      · exact Or.inl (mem_slist.mp hx)
      · exact Or.inr (ih rec s hs2 x hx)
    · simp only [csvDeltaCommon, if_neg hc] at hs
      simp only [csvDeltaCols, if_neg hc]
      exact ih cols s hs x hx

theorem opCommon_subset (op : Op) :
    ∀ s ∈ opCommon op, ∀ x ∈ s, x ∈ opCols op := by
  cases op with
  | csv path input => exact csvDeltaCommon_subset input []
  | json path fields =>
    intro s hs x hx
    simp only [opCommon, List.mem_singleton] at hs
    subst hs
    exact mem_slist.mp hx
  | xml path objects =>
    intro s hs x hx
    simp only [opCommon, List.mem_singleton] at hs
    subst hs
    exact mem_slist.mp hx

theorem csvDeltaCommon_nodup (input : List (List String)) :
    ∀ cols, ∀ s ∈ csvDeltaCommon cols input, s.Nodup := by
  induction input with
  | nil => intro cols s hs; simp [csvDeltaCommon] at hs
  | cons rec rest ih =>
    intro cols s hs
    by_cases hc : cols.isEmpty
    · simp only [csvDeltaCommon, if_pos hc, List.mem_cons] at hs
      rcases hs with rfl | hs2
      · exact nodup_slist rec
      · exact ih rec s hs2
    · simp only [csvDeltaCommon, if_neg hc] at hs
      exact ih cols s hs

theorem opCommon_nodup (op : Op) : ∀ s ∈ opCommon op, s.Nodup := by
  cases op with
  | csv path input => exact csvDeltaCommon_nodup input []
  | json path fields =>
    intro s hs
    simp only [opCommon, List.mem_singleton] at hs
    subst hs
    exact nodup_slist _
  | xml path objects =>
    intro s hs
    simp only [opCommon, List.mem_singleton] at hs
    subst hs
    exact nodup_slist _

theorem mem_opCommon_of_runOps {ops : List Op} {s : List String}
    (hs : s ∈ (runOps ops).common_columns) : ∃ op ∈ ops, s ∈ opCommon op := by
  rw [runOps_common] at hs
  rcases List.mem_flatten.mp hs with ⟨l, hl, hsl⟩
  rcases List.mem_map.mp hl with ⟨op, hop, rfl⟩
  exact ⟨op, hop, hsl⟩

theorem runOps_common_nodup (ops : List Op) :
    ∀ s ∈ (runOps ops).common_columns, s.Nodup := by
  intro s hs
  rcases mem_opCommon_of_runOps hs with ⟨op, hop, hsop⟩
  exact opCommon_nodup op s hsop

theorem runOps_common_subset_columns (ops : List Op) :
    ∀ s ∈ (runOps ops).common_columns, ∀ x ∈ s, x ∈ (runOps ops).columns := by
  intro s hs x hx
  rcases mem_opCommon_of_runOps hs with ⟨op, hop, hsop⟩
  exact (runOps_columns_mem ops x).mpr ⟨op, hop, opCommon_subset op s hsop x hx⟩

/-! ### Lemmas about the intersection of the source column sets -/

theorem mem_interAll {ss : List (List String)} {x : String} :
    x ∈ interAll ss ↔ ss ≠ [] ∧ ∀ s ∈ ss, x ∈ s := by
  cases ss with
  | nil => simp [interAll]
  | cons s rest =>
    simp only [interAll, List.mem_filter, List.all_eq_true, decide_eq_true_eq,
      List.mem_cons, ne_eq, reduceCtorEq, not_false_eq_true, true_and]
    constructor
    · rintro ⟨h1, h2⟩ t (rfl | ht)
      · exact h1
      · exact h2 t ht
    · intro h
      exact ⟨h s (Or.inl rfl), fun t ht => h t (Or.inr ht)⟩

theorem interAll_nodup {ss : List (List String)} (h : ∀ s ∈ ss, s.Nodup) :
    (interAll ss).Nodup := by
  cases ss with
  | nil => simp [interAll]
  | cons s rest => exact (h s (List.mem_cons_self _ _)).filter _

/-! ### Characterization of the aggregation step -/

/-- Is a value a string (which makes integer addition raise TypeError)? -/
def isStrV : Value → Bool
  | .vstr _ => true
  | .vint _ => false

/-- Does a row contribute a string at some resolved measure column? -/
def rowBad (mcols : List String) (r : Row) : Bool :=
  (rowVecOf mcols r).any isStrV

/-- The integer carried by a value (strings never reach this in a
successful aggregation). -/
def intOfV : Value → Int
  | .vint n => n
  | .vstr _ => 0

/-- The per-row integer measure vector of a non-bad row. -/
def vecIntsOf (mcols : List String) (r : Row) : List Int :=
  (rowVecOf mcols r).map intOfV

/-- Pointwise addition of two equal-length integer vectors. -/
def addIVec (a b : List Int) : List Int :=
  List.zipWith (fun x y => x + y) a b

/-- Fold a list of measure vectors into a base vector. -/
def sumVecs (base : List Int) (vs : List (List Int)) : List Int :=
  vs.foldl addIVec base

/-- The rows whose group key is k. -/
def matchedRows (dcols : List String) (k : List Value) (rows : List Row) : List Row :=
  rows.filter (fun r => rowKeyOf dcols r = k)

/-- The zero accumulator vector (default_val in get_data_advanced). -/
def zerosOf (mcols : List String) : List Int :=
  mcols.map (fun _ => 0)

theorem omap_length {f : α → Option β} : ∀ {l : List α} {bs : List β},
    omap f l = some bs → bs.length = l.length := by
  intro l
  induction l with
  | nil =>
    intro bs h
    simp only [omap, Option.some.injEq] at h
    simp [← h]
  | cons a as ih =>
    intro bs h
    simp only [omap] at h
    cases hf : f a with
    | none => simp [hf] at h
    | some b =>
      simp only [hf] at h
      cases ho : omap f as with
      | none => simp [ho] at h
      | some cs =>
        simp only [ho, Option.some.injEq] at h
        simp [← h, ih ho]

theorem addVec_some_eq : ∀ (cur : List Int) (v : List Value) {nv : List Int},
    cur.length = v.length → addVec cur v = some nv →
    nv = addIVec cur (v.map intOfV) := by
  intro cur
  induction cur with
  | nil =>
    intro v nv hl h
    cases v with
    | nil =>
      simp only [addVec, List.zip_nil_left, omap, Option.some.injEq] at h
      simp [← h, addIVec]
    | cons x xs => simp at hl
  | cons a as ih =>
    intro v nv hl h
    cases v with
    | nil => simp at hl
    | cons x xs =>
      simp only [addVec, List.zip_cons_cons, omap] at h
      cases x with
      | vstr s => simp at h
      | vint b =>
        simp only at h
        cases ho : omap (fun p => match p.2 with | .vint b => some (p.1 + b) | .vstr _ => none)
            (List.zipWith Prod.mk as xs) with
        | none => rw [ho] at h; simp at h
        | some ns =>
          rw [ho] at h
          simp only [Option.some.injEq] at h
          have haz : addVec as xs = some ns := ho
          have h2 := ih xs (by simpa using hl) haz
          simp [← h, addIVec, List.zipWith_cons_cons, h2, intOfV]

theorem addVec_none_of_bad : ∀ (cur : List Int) (v : List Value),
    cur.length = v.length → (v.any isStrV = true) → addVec cur v = none := by
  intro cur
  induction cur with
  | nil =>
    intro v hl hbad
    cases v with
    | nil => simp at hbad
    | cons x xs => simp at hl
  | cons a as ih =>
    intro v hl hbad
    cases v with
    | nil => simp at hbad
    | cons x xs =>
      simp only [addVec, List.zip_cons_cons, omap]
      cases x with
      | vstr s => simp
      | vint b =>
        simp only [List.any_cons, isStrV, Bool.false_or] at hbad
        have h0 := ih xs (by simpa using hl) hbad
        have h1 : omap (fun p => match p.2 with | .vint b => some (p.1 + b) | .vstr _ => none)
            (List.zipWith Prod.mk as xs) = none := h0
        simp [h1]

theorem addVec_some_length : ∀ {cur : List Int} {v : List Value} {nv : List Int},
    addVec cur v = some nv → nv.length = min cur.length v.length := by
  intro cur v nv h
  have := omap_length h
  simpa [List.length_zip] using this

theorem rowVecOf_length (mcols : List String) (r : Row) :
    (rowVecOf mcols r).length = mcols.length := by
  simp [rowVecOf]

theorem zerosOf_length (mcols : List String) : (zerosOf mcols).length = mcols.length := by
  simp [zerosOf]

theorem alookupK_length {mcols : List String} :
    ∀ {data : List (List Value × List Int)} {k : List Value} {w : List Int},
    (∀ p ∈ data, p.2.length = mcols.length) → alookupK k data = some w →
    w.length = mcols.length := by
  intro data
  induction data with
  | nil => intro k w _ h; simp [alookupK] at h
  | cons p rest ih =>
    intro k w hlen h
    simp only [alookupK] at h
    by_cases hk : p.1 = k
    · rw [if_pos hk] at h
      cases h
      exact hlen p (List.mem_cons_self _ _)
    · rw [if_neg hk] at h
      exact ih (fun q hq => hlen q (List.mem_cons_of_mem _ hq)) h

theorem alookupK_aupdateK_self (k : List Value) (v : List Int)
    (data : List (List Value × List Int)) :
    alookupK k (aupdateK k v data) = some v := by
  induction data with
  | nil => simp [aupdateK, alookupK]
  | cons p rest ih =>
    by_cases h : p.1 = k
    · simp [aupdateK, alookupK, h]
    · simp [aupdateK, alookupK, h, ih]

theorem alookupK_aupdateK_other {k k2 : List Value} (h : k ≠ k2) (v : List Int)
    (data : List (List Value × List Int)) :
    alookupK k2 (aupdateK k v data) = alookupK k2 data := by
  induction data with
  | nil => simp [aupdateK, alookupK, h]
  | cons p rest ih =>
    by_cases h2 : p.1 = k
    · have h3 : p.1 ≠ k2 := by rw [h2]; exact h
      simp [aupdateK, alookupK, h2, h3, h]
    · simp [aupdateK, alookupK, h2, ih]

theorem mem_aupdateK {p : List Value × List Int} {k : List Value} {v : List Int} :
    ∀ {data : List (List Value × List Int)},
    p ∈ aupdateK k v data → p = (k, v) ∨ p ∈ data := by
  intro data
  induction data with
  | nil => simp [aupdateK]
  | cons q rest ih =>
    by_cases h : q.1 = k
    · simp only [aupdateK, if_pos h, List.mem_cons]
      rintro (rfl | h2)
      · exact Or.inl (by rw [h])
      · exact Or.inr (Or.inr h2)
    · simp only [aupdateK, if_neg h, List.mem_cons]
      rintro (rfl | h2)
      · exact Or.inr (Or.inl rfl)
      · rcases ih h2 with h3 | h3
        · exact Or.inl h3
        · exact Or.inr (Or.inr h3)

theorem getD_cur_length {mcols : List String} {data : List (List Value × List Int)}
    {k : List Value} (hlen : ∀ p ∈ data, p.2.length = mcols.length) :
    ((alookupK k data).getD (mcols.map (fun _ => 0))).length = mcols.length := by
  cases h : alookupK k data with
  | none => simp
  | some w => simpa using alookupK_length hlen h

theorem addVec_isSome_of_good : ∀ (cur : List Int) (v : List Value),
    cur.length = v.length → v.any isStrV = false →
    addVec cur v = some (addIVec cur (v.map intOfV)) := by
  intro cur
  induction cur with
  | nil =>
    intro v hl hg
    cases v with
    | nil => simp [addVec, omap, addIVec]
    | cons x xs => simp at hl
  | cons a as ih =>
    intro v hl hg
    cases v with
    | nil => simp at hl
    | cons x xs =>
      cases x with
      | vstr s => simp [isStrV] at hg
      | vint b =>
        simp only [List.any_cons, isStrV, Bool.false_or] at hg
        have h0 := ih xs (by simpa using hl) hg
        have h1 : omap (fun p => match p.2 with | .vint b => some (p.1 + b) | .vstr _ => none)
            (List.zipWith Prod.mk as xs) = some (addIVec as (xs.map intOfV)) := h0
        show omap _ (List.zipWith Prod.mk (a :: as) (Value.vint b :: xs)) = _
        simp only [List.zipWith_cons_cons, omap, h1]
        simp [addIVec, intOfV]

theorem invariant_step {mcols : List String} {data : List (List Value × List Int)}
    {k : List Value} {nv : List Int}
    (hlen : ∀ p ∈ data, p.2.length = mcols.length) (hnv : nv.length = mcols.length) :
    ∀ p ∈ aupdateK k nv data, p.2.length = mcols.length := by
  intro p hp
  rcases mem_aupdateK hp with rfl | hp2
  · exact hnv
  · exact hlen p hp2

theorem get_data_isSome {dcols mcols : List String} :
    ∀ (rows : List Row) (data : List (List Value × List Int)),
    (∀ p ∈ data, p.2.length = mcols.length) →
    ((get_data_advanced dcols mcols rows data).isSome ↔ ∀ r ∈ rows, rowBad mcols r = false) := by
  intro rows
  induction rows with
  | nil => intro data hlen; simp [get_data_advanced]
  | cons r rs ih =>
    intro data hlen
    simp only [get_data_advanced]
    by_cases hbad : rowBad mcols r = true
    · rw [addVec_none_of_bad _ _ (by rw [getD_cur_length hlen, rowVecOf_length]) hbad]
      simp only [Option.isSome_none, Bool.false_eq_true, false_iff]
      intro hall
      exact absurd (hall r (List.mem_cons_self _ _)) (by simp [hbad])
    · have hb : rowBad mcols r = false := by
        revert hbad; cases rowBad mcols r <;> simp
      rw [addVec_isSome_of_good _ _ (by rw [getD_cur_length hlen, rowVecOf_length]) hb]
      have hnv : (addIVec ((alookupK (rowKeyOf dcols r) data).getD (mcols.map fun _ => 0))
          ((rowVecOf mcols r).map intOfV)).length = mcols.length := by
        unfold addIVec
        rw [List.length_zipWith, getD_cur_length hlen, List.length_map, rowVecOf_length]
        simp
      rw [ih _ (invariant_step hlen hnv)]
      simp [hb]

theorem get_data_lookup {dcols mcols : List String} :
    ∀ (rows : List Row) (data out : List (List Value × List Int)),
    (∀ p ∈ data, p.2.length = mcols.length) →
    get_data_advanced dcols mcols rows data = some out →
    ∀ k, alookupK k out =
      match alookupK k data with
      | some base => some (sumVecs base ((matchedRows dcols k rows).map (vecIntsOf mcols)))
      | none =>
        if matchedRows dcols k rows = [] then none
        else some (sumVecs (zerosOf mcols) ((matchedRows dcols k rows).map (vecIntsOf mcols))) := by
  intro rows
  induction rows with
  | nil =>
    intro data out hlen h k
    simp only [get_data_advanced, Option.some.injEq] at h
    subst h
    simp only [matchedRows, List.filter_nil, List.map_nil]
    cases hb : alookupK k data with
    | none => simp [hb]
    | some base => simp [hb, sumVecs]
  | cons r rs ih =>
    intro data out hlen h k
    simp only [get_data_advanced] at h
    by_cases hbad : rowBad mcols r = true
    · rw [addVec_none_of_bad _ _ (by rw [getD_cur_length hlen, rowVecOf_length]) hbad] at h
      simp at h
    · have hb : rowBad mcols r = false := by
        revert hbad; cases rowBad mcols r <;> simp
      rw [addVec_isSome_of_good _ _ (by rw [getD_cur_length hlen, rowVecOf_length]) hb] at h
      set cur := (alookupK (rowKeyOf dcols r) data).getD (mcols.map fun _ => 0) with hcur
      set nv := addIVec cur ((rowVecOf mcols r).map intOfV) with hnv
      have hnvlen : nv.length = mcols.length := by
        rw [hnv, hcur]
        unfold addIVec
        rw [List.length_zipWith, getD_cur_length hlen, List.length_map, rowVecOf_length]
        simp
      have hrec := ih _ out (invariant_step hlen hnvlen) h k
      by_cases hk : rowKeyOf dcols r = k
      · subst hk
        rw [alookupK_aupdateK_self] at hrec
        have hmatch : matchedRows dcols (rowKeyOf dcols r) (r :: rs) =
            r :: matchedRows dcols (rowKeyOf dcols r) rs := by
          simp [matchedRows, List.filter_cons]
        rw [hmatch]
        simp only [List.map_cons]
        have hsum : ∀ vs, sumVecs nv vs = sumVecs cur (vecIntsOf mcols r :: vs) := by
          intro vs
          simp [sumVecs, hnv, vecIntsOf]
        rw [hrec]
        cases hbase : alookupK (rowKeyOf dcols r) data with
        | none =>
          simp only [hbase, hcur] at hsum ⊢
          rw [if_neg (by simp)]
          rw [hsum]
          rfl
        | some base =>
          simp only [hbase, hcur] at hsum ⊢
          rw [hsum]
          rfl
      · rw [alookupK_aupdateK_other hk] at hrec
        have hmatch : matchedRows dcols k (r :: rs) = matchedRows dcols k rs := by
          simp [matchedRows, List.filter_cons, hk]
        rw [hmatch]
        exact hrec

theorem alookupK_eq_none_iff {k : List Value} :
    ∀ {data : List (List Value × List Int)},
    alookupK k data = none ↔ k ∉ data.map Prod.fst := by
  intro data
  induction data with
  | nil => simp [alookupK]
  | cons p rest ih =>
    simp only [alookupK, List.map_cons, List.mem_cons]
    by_cases h : p.1 = k
    · simp [h]
    · simp only [if_neg h, ih]
      constructor
      · intro h2
        rintro (rfl | h3)
        · exact h rfl
        · exact h2 h3
      · intro h2 h3
        exact h2 (Or.inr h3)

theorem aupdateK_keys_mem {x k : List Value} {v : List Int} :
    ∀ {data : List (List Value × List Int)},
    x ∈ (aupdateK k v data).map Prod.fst ↔ x ∈ data.map Prod.fst ∨ x = k := by
  intro data
  induction data with
  | nil => simp [aupdateK]
  | cons p rest ih =>
    by_cases h : p.1 = k
    · simp only [aupdateK, if_pos h, List.map_cons, List.mem_cons]
      constructor
      · rintro (rfl | h2)
        · exact Or.inl (Or.inl rfl)
        · exact Or.inl (Or.inr h2)
      · rintro ((rfl | h2) | rfl)
        · exact Or.inl rfl
        · exact Or.inr h2
        · exact Or.inl h.symm
    · simp only [aupdateK, if_neg h, List.map_cons, List.mem_cons, ih]
      tauto

theorem aupdateK_keys_nodup {k : List Value} {v : List Int} :
    ∀ {data : List (List Value × List Int)},
    ((data.map Prod.fst).Nodup) → ((aupdateK k v data).map Prod.fst).Nodup := by
  intro data
  induction data with
  | nil => simp [aupdateK]
  | cons p rest ih =>
    intro hd
    rcases List.nodup_cons.mp hd with ⟨hp, hrest⟩
    by_cases h : p.1 = k
    · simp only [aupdateK, if_pos h, List.map_cons]
      exact List.nodup_cons.mpr ⟨hp, hrest⟩
    · simp only [aupdateK, if_neg h, List.map_cons]
      refine List.nodup_cons.mpr ⟨?_, ih hrest⟩
      intro hmem
      rcases aupdateK_keys_mem.mp hmem with h2 | rfl
      · exact hp h2
      · exact h rfl

theorem get_data_keys_nodup {dcols mcols : List String} :
    ∀ (rows : List Row) (data out : List (List Value × List Int)),
    (data.map Prod.fst).Nodup →
    get_data_advanced dcols mcols rows data = some out →
    (out.map Prod.fst).Nodup := by
  intro rows
  induction rows with
  | nil =>
    intro data out hd h
    simp only [get_data_advanced, Option.some.injEq] at h
    subst h
    exact hd
  | cons r rs ih =>
    intro data out hd h
    simp only [get_data_advanced] at h
    cases ha : addVec ((alookupK (rowKeyOf dcols r) data).getD (mcols.map fun _ => 0))
        (rowVecOf mcols r) with
    | none => rw [ha] at h; simp at h
    | some nv =>
      rw [ha] at h
      simp only at h
      exact ih _ _ (aupdateK_keys_nodup hd) h

/-! ### Permutation invariance utilities -/

theorem addIVec_right_comm : ∀ (a u v : List Int),
    addIVec (addIVec a u) v = addIVec (addIVec a v) u := by
  intro a
  induction a with
  | nil => intro u v; simp [addIVec]
  | cons x xs ih =>
    intro u v
    cases u with
    | nil => simp [addIVec]
    | cons y ys =>
      cases v with
      | nil => simp [addIVec]
      | cons z zs =>
        simp only [addIVec, List.zipWith_cons_cons]
        congr 1
        · ring
        · exact ih ys zs

theorem sumVecs_perm {vs1 vs2 : List (List Int)} (h : vs1.Perm vs2) :
    ∀ base, sumVecs base vs1 = sumVecs base vs2 := by
  induction h with
  | nil => intro base; rfl
  | cons x h ih => intro base; simp only [sumVecs, List.foldl_cons]; exact ih _
  | swap x y l =>
    intro base
    simp only [sumVecs, List.foldl_cons]
    rw [addIVec_right_comm]
  | trans h1 h2 ih1 ih2 => intro base; rw [ih1, ih2]

theorem perm_flatten {l1 l2 : List (List α)} (h : l1.Perm l2) :
    l1.flatten.Perm l2.flatten := by
  induction h with
  | nil => exact List.Perm.refl _
  | cons x h ih => simpa using ih.append_left x
  | swap x y l =>
    simp only [List.flatten_cons]
    rw [← List.append_assoc, ← List.append_assoc]
    exact (List.perm_append_comm).append_right _
  | trans h1 h2 ih1 ih2 => exact ih1.trans ih2

/-! ### Asymmetry of the value and key comparators -/

theorem charLt_asym {a b : Char} (h : charLt a b = true) : charLt b a = false := by
  simp only [charLt, decide_eq_true_eq] at h
  simp only [charLt, decide_eq_false_iff_not]
  omega

theorem strLtChars_asym : ∀ {a b : List Char},
    strLtChars a b = true → strLtChars b a = false := by
  intro a
  induction a with
  | nil =>
    intro b h
    cases b with
    | nil => simp [strLtChars] at h
    | cons c cs => simp [strLtChars]
  | cons x xs ih =>
    intro b h
    cases b with
    | nil => simp [strLtChars] at h
    | cons y ys =>
      simp only [strLtChars] at h ⊢
      by_cases hxy : x = y
      · subst hxy
        rw [if_pos rfl] at h ⊢
        exact ih h
      · rw [if_neg hxy] at h
        rw [if_neg (fun hh => hxy hh.symm)]
        exact charLt_asym h

theorem vlt_asym {a b : Value} (h : vlt a b = some true) : vlt b a = some false := by
  cases a <;> cases b <;> simp_all [vlt, pyStrLt]
  · exact strLtChars_asym h
  · omega

theorem keyLt_asym : ∀ {a b : List Value},
    keyLt a b = some true → keyLt b a = some false := by
  intro a
  induction a with
  | nil =>
    intro b h
    cases b with
    | nil => simp [keyLt] at h
    | cons y ys => simp [keyLt]
  | cons x xs ih =>
    intro b h
    cases b with
    | nil => simp [keyLt] at h
    | cons y ys =>
      simp only [keyLt] at h ⊢
      by_cases hxy : x = y
      · subst hxy
        rw [if_pos rfl] at h ⊢
        exact ih h
      · rw [if_neg hxy] at h
        rw [if_neg (fun hh => hxy hh.symm)]
        exact vlt_asym h

theorem keyLe_asym {a b : List Value} (h : keyLe a b = some false) :
    keyLe b a = some true := by
  simp only [keyLe] at h ⊢
  cases hlt : keyLt b a with
  | none => rw [hlt] at h; simp at h
  | some t =>
    rw [hlt] at h
    simp only [Option.map_some', Option.some.injEq] at h
    cases t with
    | false => simp at h
    | true => rw [keyLt_asym hlt]; rfl

theorem vle_asym {a b : Value} (h : vle a b = some false) : vle b a = some true := by
  simp only [vle] at h ⊢
  cases hlt : vlt b a with
  | none => rw [hlt] at h; simp at h
  | some t =>
    rw [hlt] at h
    simp only [Option.map_some', Option.some.injEq] at h
    cases t with
    | false => simp at h
    | true => rw [vlt_asym hlt]; rfl

/-! ### Row-content lemmas for the three readers -/

theorem csvFields_keys (path : String) (ln : Nat) :
    ∀ (ps : List (String × String)) (r : Row) (p : String × Value),
    p ∈ (csvFields path ln ps r).1 →
    p ∈ r ∨ p.1.front = 'D' ∨ p.1.front = 'M' := by
  intro ps
  induction ps with
  | nil => intro r p hp; exact Or.inl hp
  | cons q rest ih =>
    intro r p hp
    rcases q with ⟨k, v⟩
    simp only [csvFields] at hp
    by_cases hd : k.front = 'D'
    · rw [if_pos hd] at hp
      rcases ih _ p hp with h2 | h2
      · rcases mem_dictSet h2 with rfl | h3
        · exact Or.inr (Or.inl hd)
        · exact Or.inl h3
      · exact Or.inr h2
    · rw [if_neg hd] at hp
      by_cases hm : k.front = 'M'
      · rw [if_pos hm] at hp
        cases hpi2 : pyIntOfString v with
        | some n =>
          rw [hpi2] at hp
          rcases ih _ p hp with h2 | h2
          · rcases mem_dictSet h2 with rfl | h3
            · exact Or.inr (Or.inr hm)
            · exact Or.inl h3
          · exact Or.inr h2
        | none =>
          rw [hpi2] at hp
          exact ih r p hp
      · rw [if_neg hm] at hp
        exact ih r p hp

theorem xmlChildren_keys (path col : String) :
    ∀ (children : List String) (r : Row) (p : String × Value),
    p ∈ (xmlChildren path col children r).1 →
    p ∈ r ∨ p.1.front = 'D' ∨ p.1.front = 'M' := by
  intro children
  induction children with
  | nil => intro r p hp; exact Or.inl hp
  | cons t rest ih =>
    intro r p hp
    simp only [xmlChildren] at hp
    by_cases hd : col.front = 'D'
    · rw [if_pos hd] at hp
      rcases ih _ p hp with h2 | h2
      · rcases mem_dictSet h2 with rfl | h3
        · exact Or.inr (Or.inl hd)
        · exact Or.inl h3
      · exact Or.inr h2
    · rw [if_neg hd] at hp
      by_cases hm : col.front = 'M'
      · rw [if_pos hm] at hp
        cases hpi : pyIntOfString t with
        | some n =>
          rw [hpi] at hp
          rcases ih _ p hp with h2 | h2
          · rcases mem_dictSet h2 with rfl | h3
            · exact Or.inr (Or.inr hm)
            · exact Or.inl h3
          · exact Or.inr h2
        | none =>
          rw [hpi] at hp
          exact ih r p hp
      · rw [if_neg hm] at hp
        exact ih r p hp

theorem xmlRowAux_keys :
    ∀ (objects : List (String × List String)) (r : Row) (p : String × Value),
    p ∈ xmlRowAux objects r → p ∈ r ∨ p.1.front = 'D' ∨ p.1.front = 'M' := by
  intro objects
  induction objects with
  | nil => intro r p hp; exact Or.inl hp
  | cons obj rest ih =>
    intro r p hp
    simp only [xmlRowAux] at hp
    rcases ih _ p hp with h2 | h2
    · exact xmlChildren_keys "" obj.1 obj.2 r p h2
    · exact Or.inr h2

/-! ### Lookup characterizations for read_json rows -/

theorem jsonFields_frame (path : String) :
    ∀ (f : List (String × Value)) (r : Row) (k : String),
    k ∉ f.map Prod.fst → alookup k (jsonFields path f r).1 = alookup k r := by
  intro f
  induction f with
  | nil => intro r k _; rfl
  | cons q rest ih =>
    intro r k hk
    rcases q with ⟨k2, v2⟩
    simp only [List.map_cons, List.mem_cons, not_or] at hk
    rcases hk with ⟨hk1, hk2⟩
    simp only [jsonFields]
    by_cases hm : k2.front = 'M'
    · rw [if_pos hm]
      cases hpi : pyInt v2 with
      | some n =>
        rw [ih _ k hk2, alookup_dictSet_other (fun hh => hk1 hh.symm)]
      | none => exact ih _ k hk2
    · rw [if_neg hm]
      rw [ih _ k hk2, alookup_dictSet_other (fun hh => hk1 hh.symm)]

theorem jsonFields_lookup_notM (path : String) :
    ∀ (f : List (String × Value)) (r : Row) (k : String) (v : Value),
    (f.map Prod.fst).Nodup → (k, v) ∈ f → ¬ k.front = 'M' →
    alookup k (jsonFields path f r).1 = some v := by
  intro f
  induction f with
  | nil => intro r k v _ hmem; simp at hmem
  | cons q rest ih =>
    intro r k v hnd hmem hm
    rcases q with ⟨k2, v2⟩
    have hnd2 : (k2 :: rest.map Prod.fst).Nodup := by simpa using hnd
    rcases List.nodup_cons.mp hnd2 with ⟨hk2, hrest⟩
    simp only [jsonFields]
    rcases List.mem_cons.mp hmem with heq | hmem2
    · injection heq with he1 he2
      subst he1
      subst he2
      rw [if_neg hm]
      rw [jsonFields_frame path rest _ k hk2]
      exact alookup_dictSet_self k v r
    · have hkne : k2 ≠ k := by
        intro hh
        exact hk2 (hh ▸ (List.mem_map_of_mem Prod.fst hmem2))
      by_cases hm2 : k2.front = 'M'
      · rw [if_pos hm2]
        cases hpi : pyInt v2 with
        | some n => exact ih _ k v hrest hmem2 hm
        | none => exact ih _ k v hrest hmem2 hm
      · rw [if_neg hm2]
        exact ih _ k v hrest hmem2 hm

theorem jsonFields_lookup_M (path : String) :
    ∀ (f : List (String × Value)) (r : Row) (k : String) (v : Value),
    (f.map Prod.fst).Nodup → (k, v) ∈ f → k.front = 'M' →
    alookup k (jsonFields path f r).1 =
      match pyInt v with
      | some _ => some v
      | none => alookup k r := by
  intro f
  induction f with
  | nil => intro r k v _ hmem; simp at hmem
  | cons q rest ih =>
    intro r k v hnd hmem hm
    rcases q with ⟨k2, v2⟩
    have hnd2 : (k2 :: rest.map Prod.fst).Nodup := by simpa using hnd
    rcases List.nodup_cons.mp hnd2 with ⟨hk2, hrest⟩
    simp only [jsonFields]
    rcases List.mem_cons.mp hmem with heq | hmem2
    · injection heq with he1 he2
      subst he1
      subst he2
      rw [if_pos hm]
      cases hpi : pyInt v with
      | some n =>
        rw [jsonFields_frame path rest _ k hk2]
        exact alookup_dictSet_self k v r
      | none =>
        exact jsonFields_frame path rest _ k hk2
    · have hkne : k2 ≠ k := by
        intro hh
        exact hk2 (hh ▸ (List.mem_map_of_mem Prod.fst hmem2))
      by_cases hm2 : k2.front = 'M'
      · rw [if_pos hm2]
        cases hpi : pyInt v2 with
        | some n =>
          rw [ih _ k v hrest hmem2 hm]
          cases pyInt v with
          | some m => rfl
          | none =>
            show alookup k (dictSet k2 v2 r) = alookup k r
            exact alookup_dictSet_other hkne v2 r
        | none => exact ih _ k v hrest hmem2 hm
      · rw [if_neg hm2]
        rw [ih _ k v hrest hmem2 hm]
        cases pyInt v with
        | some m => rfl
        | none =>
          show alookup k (dictSet k2 v2 r) = alookup k r
          exact alookup_dictSet_other hkne v2 r

/-! ### Lookup characterizations for the read_xml row -/

/-- The last child text node of an object, if any. -/
def lastText : List String → Option String
  | [] => none
  | t :: rest =>
    match lastText rest with
    | some u => some u
    | none => some t

/-- The last child text node that parses as an integer, if any (later
children that fail to parse do not erase an earlier stored value). -/
def lastParsedInt : List String → Option Int
  | [] => none
  | t :: rest =>
    match lastParsedInt rest with
    | some n => some n
    | none => pyIntOfString t

theorem xmlChildren_frame (path col : String) :
    ∀ (children : List String) (r : Row) (c : String), c ≠ col →
    alookup c (xmlChildren path col children r).1 = alookup c r := by
  intro children
  induction children with
  | nil => intro r c _; rfl
  | cons t rest ih =>
    intro r c hc
    simp only [xmlChildren]
    by_cases hd : col.front = 'D'
    · rw [if_pos hd, ih _ c hc, alookup_dictSet_other (fun hh => hc hh.symm)]
    · rw [if_neg hd]
      by_cases hm : col.front = 'M'
      · rw [if_pos hm]
        cases hpi : pyIntOfString t with
        | some n => rw [ih _ c hc, alookup_dictSet_other (fun hh => hc hh.symm)]
        | none => exact ih _ c hc
      · rw [if_neg hm]
        exact ih _ c hc

theorem xmlChildren_self_D (path col : String) (hd : col.front = 'D') :
    ∀ (children : List String) (r : Row),
    alookup col (xmlChildren path col children r).1 =
      match lastText children with
      | some t => some (.vstr t)
      | none => alookup col r := by
  intro children
  induction children with
  | nil => intro r; rfl
  | cons t rest ih =>
    intro r
    simp only [xmlChildren, if_pos hd, lastText]
    rw [ih]
    cases lastText rest with
    | some u => rfl
    | none => exact alookup_dictSet_self col (.vstr t) r

theorem xmlChildren_self_M (path col : String) (hd : ¬ col.front = 'D')
    (hm : col.front = 'M') :
    ∀ (children : List String) (r : Row),
    alookup col (xmlChildren path col children r).1 =
      match lastParsedInt children with
      | some n => some (.vint n)
      | none => alookup col r := by
  intro children
  induction children with
  | nil => intro r; rfl
  | cons t rest ih =>
    intro r
    simp only [xmlChildren, if_neg hd, if_pos hm, lastParsedInt]
    cases hpi : pyIntOfString t with
    | some n =>
      rw [ih]
      cases lastParsedInt rest with
      | some m => rfl
      | none => exact alookup_dictSet_self col (.vint n) r
    | none =>
      rw [ih]
      cases lastParsedInt rest with
      | some m => rfl
      | none => rfl

theorem xmlChildren_self_other (path col : String) (hd : ¬ col.front = 'D')
    (hm : ¬ col.front = 'M') :
    ∀ (children : List String) (r : Row),
    alookup col (xmlChildren path col children r).1 = alookup col r := by
  intro children
  induction children with
  | nil => intro r; rfl
  | cons t rest ih =>
    intro r
    simp only [xmlChildren, if_neg hd, if_neg hm]
    exact ih r

theorem xmlRowAux_frame :
    ∀ (objects : List (String × List String)) (r : Row) (c : String),
    c ∉ objects.map Prod.fst → alookup c (xmlRowAux objects r) = alookup c r := by
  intro objects
  induction objects with
  | nil => intro r c _; rfl
  | cons obj rest ih =>
    intro r c hc
    simp only [List.map_cons, List.mem_cons, not_or] at hc
    simp only [xmlRowAux]
    rw [ih _ c hc.2]
    exact xmlChildren_frame "" obj.1 obj.2 r c hc.1

theorem xmlRowAux_lookup :
    ∀ (objects : List (String × List String)) (r : Row) (col : String)
      (children : List String),
    (objects.map Prod.fst).Nodup → (col, children) ∈ objects →
    alookup col (xmlRowAux objects r) =
      if col.front = 'D' then
        match lastText children with
        | some t => some (.vstr t)
        | none => alookup col r
      else if col.front = 'M' then
        match lastParsedInt children with
        | some n => some (.vint n)
        | none => alookup col r
      else alookup col r := by
  intro objects
  induction objects with
  | nil => intro r col children _ hmem; simp at hmem
  | cons obj rest ih =>
    intro r col children hnd hmem
    have hnd2 : (obj.1 :: rest.map Prod.fst).Nodup := by simpa using hnd
    rcases List.nodup_cons.mp hnd2 with ⟨hobj, hrest⟩
    simp only [xmlRowAux]
    rcases List.mem_cons.mp hmem with heq | hmem2
    · have hcol : obj.1 = col := by rw [← heq]
      have hch : obj.2 = children := by rw [← heq]
      rw [xmlRowAux_frame rest _ col (by rw [← hcol]; exact hobj)]
      rw [← hcol, ← hch]
      by_cases hd : obj.1.front = 'D'
      · rw [if_pos hd]
        exact xmlChildren_self_D "" obj.1 hd obj.2 r
      · rw [if_neg hd]
        by_cases hm : obj.1.front = 'M'
        · rw [if_pos hm]
          exact xmlChildren_self_M "" obj.1 hd hm obj.2 r
        · rw [if_neg hm]
          exact xmlChildren_self_other "" obj.1 hd hm obj.2 r
    · have hcne : col ≠ obj.1 := by
        intro hh
        exact hobj (hh ▸ (List.mem_map_of_mem Prod.fst hmem2))
      rw [ih _ col children hrest hmem2]
      rw [xmlChildren_frame "" obj.1 obj.2 r col hcne]

/-! ### Claim theorems -/

/-- The state after ingesting the concrete flat-table source of the C4
scenario: header D1,M1,M2 and data rows (a,3,5) and (b,x,2). -/
def stC4 : ETL :=
  (read_csv ETL.init "f" [["D1", "M1", "M2"], ["a", "3", "5"], ["b", "x", "2"]]).1

/-- C4: ingesting a csv source with header D1,M1,M2 and rows (a,3,5) and
(b,x,2) emits exactly one diagnostic, for (b, M1, x) at line 3; stores
rows (D1:a, M1:3, M2:5) and (D1:b, M2:2); the Basic union report is
header D1 M1 M2 with body lines (a 3 5) then (b - 2); and the Advanced
union report is header D1 MS1 MS2 with lines (a 3 5) and (b 0 2). -/
theorem claim_C4 :
    (read_csv ETL.init "f" [["D1", "M1", "M2"], ["a", "3", "5"], ["b", "x", "2"]]).2 =
      [⟨"f", "M1", Value.vstr "x", some 3⟩]
  ∧ stC4.rows =
      [[("D1", Value.vstr "a"), ("M1", Value.vint 3), ("M2", Value.vint 5)],
       [("D1", Value.vstr "b"), ("M2", Value.vint 2)]]
  ∧ write_tsv_basic stC4 false =
      some [["D1", "M1", "M2"], ["a", "3", "5"], ["b", "-", "2"]]
  ∧ write_tsv_advanced stC4 false =
      some [["D1", "MS1", "MS2"], ["a", "3", "5"], ["b", "0", "2"]] := by
  decide

/-- C9: with zero ingested sources both resolution policies return two
empty lists without error, and all four reports consist of a single
empty header line and no body lines. -/
theorem claim_C9 :
    d_m_sorted_columns ETL.init = some ([], [])
  ∧ d_m_sorted_common_columns ETL.init = some ([], [])
  ∧ write_tsv_basic ETL.init false = some [[]]
  ∧ write_tsv_basic ETL.init true = some [[]]
  ∧ write_tsv_advanced ETL.init false = some [[]]
  ∧ write_tsv_advanced ETL.init true = some [[]] := by
  decide

/-- C1 (code bug): in read_json the raw text "7" parses as the integer 7,
yet the stored row value is the raw string (the unconditional assignment
on line 100 of etl_script.py overwrites the coerced integer computed on
line 99, which is a dead store), contradicting the documented coercion
contract shared by all three readers. -/
theorem claim_C1_code_bug :
    pyIntOfString "7" = some 7
  ∧ (read_json ETL.init "f" [[("M1", Value.vstr "7")]]).1.rows =
      [[("M1", Value.vstr "7")]] := by
  decide

/-- C2 (counterexample): after reading a csv whose header contains the
ignored-prefix name X1, that name is stored in the columns attribute;
and a read_json call stores a row containing the ignored-prefix column
X7 — both contradicting the claim that such names are never stored. -/
theorem claim_C2_cex :
    "X1" ∈ (read_csv ETL.init "f" [["X1", "D1"], ["v", "a"]]).1.columns
  ∧ (read_json ETL.init "g" [[("X7", Value.vstr "z")]]).1.rows =
      [[("X7", Value.vstr "z")]] := by
  decide

/-- C8 (counterexample): the column name D-3 has a suffix that parses as
the negative integer -3, hence not as a non-negative integer literal,
yet resolving the column lists succeeds instead of raising an error. -/
theorem claim_C8_cex :
    suffixKey "D-3" = some (-3)
  ∧ (-3 : Int) < 0
  ∧ d_m_sorted_columns ⟨[], ["D-3"], []⟩ = some (["D-3"], []) := by
  decide

/-- C10 (counterexample): a read_xml call whose single measure object M1
has the two children 3 and x stores the value 3 coerced from the first
child, although the last child's text x does not parse — so it is not
the case that only the last child's text is stored. -/
theorem claim_C10_cex :
    (read_xml ETL.init "h" [("M1", ["3", "x"])]).1.rows = [[("M1", Value.vint 3)]]
  ∧ pyIntOfString "x" = none := by
  decide

/-- C3 (counterexample): in a state whose only column is D2, the first
resolved dimension column is D2 and every stored row has it, yet the
Basic report fails (KeyError on the hardcoded sort key D1) instead of
producing a body sorted by D2. -/
theorem claim_C3_cex :
    d_m_sorted_columns (read_csv ETL.init "f" [["D2"], ["b"], ["a"]]).1 = some (["D2"], [])
  ∧ (∀ r ∈ (read_csv ETL.init "f" [["D2"], ["b"], ["a"]]).1.rows, (alookup "D2" r).isSome)
  ∧ write_tsv_basic (read_csv ETL.init "f" [["D2"], ["b"], ["a"]]).1 false = none := by
  decide

theorem pySortBySuffix_eq_none {l : List String} (h : ∃ s ∈ l, suffixKey s = none) :
    pySortBySuffix l = none := by
  rcases h with ⟨s, hs, hk⟩
  cases hp : pySortBySuffix l with
  | none => rfl
  | some r =>
    have h2 := pySortBySuffix_isSome.mp (by rw [hp]; rfl) s hs
    rw [hk] at h2
    simp at h2

theorem pySortBySuffix_eq_some {l : List String} (h : ∀ s ∈ l, (suffixKey s).isSome) :
    (pySortBySuffix l).isSome :=
  pySortBySuffix_isSome.mpr h

/-- C8 (amended): resolving the column lists raises an error exactly when
some name kept by the D/M partition has a suffix that Python int()
rejects; a suffix that parses as any integer — also negative or
whitespace-padded — never aborts, so abort is not equivalent to the
suffix failing to be a non-negative integer literal. -/
theorem claim_C8_amended (st : ETL) :
    ((∃ c ∈ st.columns, (c.front = 'D' ∨ c.front = 'M') ∧ suffixKey c = none) →
        d_m_sorted_columns st = none)
  ∧ ((∀ c ∈ st.columns, c.front = 'D' ∨ c.front = 'M' → (suffixKey c).isSome) →
        (d_m_sorted_columns st).isSome)
  ∧ ((∃ c ∈ interAll st.common_columns, (c.front = 'D' ∨ c.front = 'M') ∧ suffixKey c = none) →
        d_m_sorted_common_columns st = none)
  ∧ ((¬ st.common_columns.isEmpty) →
      (∀ c ∈ interAll st.common_columns, c.front = 'D' ∨ c.front = 'M' → (suffixKey c).isSome) →
        (d_m_sorted_common_columns st).isSome) := by
  refine ⟨?_, ?_, ?_, ?_⟩
  · rintro ⟨c, hc, hfront, hkey⟩
    unfold d_m_sorted_columns
    rcases hfront with hd | hm
    · rw [pySortBySuffix_eq_none ⟨c, List.mem_filter.mpr ⟨hc, by simp [hd]⟩, hkey⟩]
      rfl
    · cases hds : pySortBySuffix (st.columns.filter (fun c => c.front = 'D')) with
      | none => rfl
      | some ds =>
        rw [pySortBySuffix_eq_none ⟨c, List.mem_filter.mpr ⟨hc, by simp [hm]⟩, hkey⟩]
        rfl
  · intro h
    unfold d_m_sorted_columns
    cases hds : pySortBySuffix (st.columns.filter (fun c => c.front = 'D')) with
    | none =>
      have := @pySortBySuffix_eq_some (st.columns.filter (fun c => c.front = 'D'))
        (fun s hs => h s (List.mem_filter.mp hs).1
          (Or.inl (by simpa using (List.mem_filter.mp hs).2)))
      rw [hds] at this
      simp at this
    | some ds =>
      cases hms : pySortBySuffix (st.columns.filter (fun c => c.front = 'M')) with
      | none =>
        have := @pySortBySuffix_eq_some (st.columns.filter (fun c => c.front = 'M'))
          (fun s hs => h s (List.mem_filter.mp hs).1
            (Or.inr (by simpa using (List.mem_filter.mp hs).2)))
        rw [hms] at this
        simp at this
      | some ms => rfl
  · rintro ⟨c, hc, hfront, hkey⟩
    unfold d_m_sorted_common_columns
    have hne : ¬ st.common_columns.isEmpty := by
      rcases mem_interAll.mp hc with ⟨hne2, _⟩
      simpa [List.isEmpty_iff] using hne2
    rw [if_neg hne]
    rcases hfront with hd | hm
    · rw [pySortBySuffix_eq_none ⟨c, List.mem_filter.mpr ⟨hc, by simp [hd]⟩, hkey⟩]
      rfl
    · cases hds : pySortBySuffix ((interAll st.common_columns).filter (fun c => c.front = 'D')) with
      | none => rfl
      | some ds =>
        rw [pySortBySuffix_eq_none ⟨c, List.mem_filter.mpr ⟨hc, by simp [hm]⟩, hkey⟩]
        rfl
  · intro hne h
    unfold d_m_sorted_common_columns
    rw [if_neg hne]
    cases hds : pySortBySuffix ((interAll st.common_columns).filter (fun c => c.front = 'D')) with
    | none =>
      have := @pySortBySuffix_eq_some
        ((interAll st.common_columns).filter (fun c => c.front = 'D'))
        (fun s hs => h s (List.mem_filter.mp hs).1
          (Or.inl (by simpa using (List.mem_filter.mp hs).2)))
      rw [hds] at this
      simp at this
    | some ds =>
      cases hms : pySortBySuffix ((interAll st.common_columns).filter (fun c => c.front = 'M')) with
      | none =>
        have := @pySortBySuffix_eq_some
          ((interAll st.common_columns).filter (fun c => c.front = 'M'))
          (fun s hs => h s (List.mem_filter.mp hs).1
            (Or.inr (by simpa using (List.mem_filter.mp hs).2)))
        rw [hms] at this
        simp at this
      | some ms => rfl

/-- C8 (witness): the name Dx aborts union resolution, while names with
plain numeric suffixes resolve without error. -/
theorem claim_C8_amended_witness :
    d_m_sorted_columns ⟨[], ["Dx"], []⟩ = none
  ∧ (d_m_sorted_columns ⟨[], ["D2", "M10"], []⟩).isSome := by
  constructor
  · exact (claim_C8_amended ⟨[], ["Dx"], []⟩).1 ⟨"Dx", by decide, by decide, by decide⟩
  · exact (claim_C8_amended ⟨[], ["D2", "M10"], []⟩).2.1 (by decide)

theorem csvDeltaRows_keys (input : List (List String)) :
    ∀ cols, ∀ r ∈ csvDeltaRows cols input, ∀ p ∈ r, p.1.front = 'D' ∨ p.1.front = 'M' := by
  induction input with
  | nil => intro cols r hr; simp [csvDeltaRows] at hr
  | cons rec rest ih =>
    intro cols r hr p hp
    by_cases hc : cols.isEmpty
    · rw [csvDeltaRows, if_pos hc] at hr
      exact ih rec r hr p hp
    · rw [csvDeltaRows, if_neg hc] at hr
      rcases List.mem_cons.mp hr with rfl | hr2
      · rcases csvFields_keys "" 0 (cols.zip rec) [] p hp with h2 | h2
        · simp at h2
        · exact h2
      · exact ih cols r hr2 p hp

/-- C2 (amended): rows appended by read_csv and read_xml contain only
columns whose first character is D or M, but the columns attribute
accumulates every name seen — csv header names and json field keys of
any prefix included — and read_json stores every non-measure field
verbatim in its row, whatever the prefix. -/
theorem claim_C2_amended (st : ETL) (path : String) (input : List (List String))
    (objects : List (String × List String)) (fields : List (List (String × Value))) :
    (∀ r ∈ (read_csv st path input).1.rows,
        r ∈ st.rows ∨ ∀ p ∈ r, p.1.front = 'D' ∨ p.1.front = 'M')
  ∧ (∀ r ∈ (read_xml st path objects).1.rows,
        r ∈ st.rows ∨ ∀ p ∈ r, p.1.front = 'D' ∨ p.1.front = 'M')
  ∧ (∀ f ∈ fields, ∀ p ∈ f, p.1 ∈ (read_json st path fields).1.columns)
  ∧ (∀ hdr rest, input = hdr :: rest →
        ∀ x ∈ hdr, x ∈ (read_csv st path input).1.columns)
  ∧ (∀ f : List (String × Value), (f.map Prod.fst).Nodup →
        ∀ p ∈ f, ¬ p.1.front = 'M' → alookup p.1 (jsonFields path f []).1 = some p.2) := by
  refine ⟨?_, ?_, ?_, ?_, ?_⟩
  · intro r hr
    rw [show (read_csv st path input).1 = _ from read_csv_aux_fst path input st [] 0] at hr
    rcases List.mem_append.mp hr with h | h
    · exact Or.inl h
    · exact Or.inr (csvDeltaRows_keys input [] r h)
  · intro r hr
    rw [show (read_xml st path objects).1 = _ from read_xml_aux_fst path objects st [] []] at hr
    rcases List.mem_append.mp hr with h | h
    · exact Or.inl h
    · rcases List.mem_singleton.mp h with rfl
      right
      intro p hp
      rcases xmlRowAux_keys objects [] p hp with h2 | h2
      · simp at h2
      · exact h2
  · intro f hf p hp
    rw [show (read_json st path fields).1 = _ from read_json_aux_fst path fields st []]
    show p.1 ∈ saddAll st.columns (jsonKeys fields)
    rw [mem_saddAll]
    right
    rw [jsonKeys, List.mem_flatten]
    exact ⟨f.map Prod.fst, List.mem_map_of_mem _ hf, List.mem_map_of_mem _ hp⟩
  · rintro hdr rest rfl x hx
    rw [show (read_csv st path (hdr :: rest)).1 = _ from read_csv_aux_fst path (hdr :: rest) st [] 0]
    show x ∈ saddAll st.columns (csvDeltaCols [] (hdr :: rest))
    rw [mem_saddAll]
    right
    rw [csvDeltaCols, if_pos (by rfl)]
    exact List.mem_append.mpr (Or.inl hx)
  · intro f hnd p hp hm
    exact jsonFields_lookup_notM path f [] p.1 p.2 hnd (by simpa using hp) hm

/-- C2 (witness): instantiating the amended claim at concrete inputs: a
row appended by read_csv has only D/M-prefixed keys, and a json field
with the ignored-prefix key X7 lands in the columns attribute. -/
theorem claim_C2_amended_witness :
    (("D1" : String).front = 'D' ∨ ("D1" : String).front = 'M')
  ∧ "X7" ∈ (read_json ETL.init "g" [[("X7", Value.vstr "z")]]).1.columns := by
  constructor
  · rcases (claim_C2_amended ETL.init "f" [["D1"], ["a"]] [] [[("X7", Value.vstr "z")]]).1
        [("D1", Value.vstr "a")] (by decide) with h | h
    · exact absurd h (by decide)
    · exact h ("D1", Value.vstr "a") (by decide)
  · exact (claim_C2_amended ETL.init "g" [] [] [[("X7", Value.vstr "z")]]).2.2.1
      [("X7", Value.vstr "z")] (by decide) ("X7", Value.vstr "z") (by decide)

/-- C10 (amended): a single read_xml call appends exactly one row and
records exactly one source column set, merging every object element into
that row; with distinct object names, a dimension-named object stores
the text of its last child, a measure-named object stores the integer of
its last child whose text parses (a later unparseable child does not
erase an earlier stored value), and an object of any other name stores
nothing. -/
theorem claim_C10_amended (st : ETL) (path : String)
    (objects : List (String × List String))
    (hnd : (objects.map Prod.fst).Nodup) :
    (read_xml st path objects).1.rows = st.rows ++ [xmlRowAux objects []]
  ∧ (read_xml st path objects).1.common_columns =
      st.common_columns ++ [slist (objects.map Prod.fst)]
  ∧ ∀ col children, (col, children) ∈ objects →
      ((col.front = 'D' →
          alookup col (xmlRowAux objects []) = (lastText children).map (fun t => .vstr t))
      ∧ (col.front = 'M' →
          alookup col (xmlRowAux objects []) = (lastParsedInt children).map (fun n => .vint n))
      ∧ (¬ col.front = 'D' → ¬ col.front = 'M' →
          alookup col (xmlRowAux objects []) = none)) := by
  refine ⟨?_, ?_, ?_⟩
  · rw [show (read_xml st path objects).1 = _ from read_xml_aux_fst path objects st [] []]
  · rw [show (read_xml st path objects).1 = _ from read_xml_aux_fst path objects st [] []]
    rfl
  · intro col children hmem
    have hlook := xmlRowAux_lookup objects [] col children hnd hmem
    refine ⟨?_, ?_, ?_⟩
    · intro hd
      rw [hlook, if_pos hd]
      cases lastText children with
      | some t => rfl
      | none => rfl
    · intro hm
      have hd : ¬ col.front = 'D' := by rw [hm]; decide
      rw [hlook, if_neg hd, if_pos hm]
      cases lastParsedInt children with
      | some n => rfl
      | none => rfl
    · intro hd hm
      rw [hlook, if_neg hd, if_neg hm]
      rfl

/-- C10 (witness): a concrete call with a two-child dimension object and
a measure object whose first child fails to parse: the dimension column
keeps the last child's text and the measure column the last parseable
child's integer, one row and one source column set being appended. -/
theorem claim_C10_amended_witness :
    (read_xml ETL.init "h" [("D1", ["a", "b"]), ("M2", ["x", "7"])]).1.rows =
      ETL.init.rows ++ [xmlRowAux [("D1", ["a", "b"]), ("M2", ["x", "7"])] []]
  ∧ alookup "D1" (xmlRowAux [("D1", ["a", "b"]), ("M2", ["x", "7"])] []) =
      (lastText ["a", "b"]).map (fun t => .vstr t)
  ∧ alookup "M2" (xmlRowAux [("D1", ["a", "b"]), ("M2", ["x", "7"])] []) =
      (lastParsedInt ["x", "7"]).map (fun n => .vint n) := by
  refine ⟨(claim_C10_amended ETL.init "h" _ (by decide)).1, ?_, ?_⟩
  · exact ((claim_C10_amended ETL.init "h" _ (by decide)).2.2 "D1" ["a", "b"]
      (by decide)).1 (by decide)
  · exact ((claim_C10_amended ETL.init "h" _ (by decide)).2.2 "M2" ["x", "7"]
      (by decide)).2.1 (by decide)

theorem chain_imp_mem {R S : α → α → Prop} :
    ∀ {l : List α}, l.Chain' R → (∀ a ∈ l, ∀ b ∈ l, R a b → S a b) → l.Chain' S := by
  intro l
  induction l with
  | nil => intro _ _; exact List.chain'_nil
  | cons x xs ih =>
    intro hc himp
    cases xs with
    | nil => simp
    | cons y ys =>
      rcases List.chain'_cons.mp hc with ⟨hxy, hrest⟩
      refine List.chain'_cons.mpr ⟨himp x (by simp) y (by simp) hxy, ?_⟩
      exact ih hrest (fun a ha b hb hr =>
        himp a (List.mem_cons_of_mem _ ha) b (List.mem_cons_of_mem _ hb) hr)

/-- C3 (amended): the Basic report body is the stored rows rendered over
the resolved columns and sorted ascending by the raw text value at the
fixed column name D1 — not at the first resolved dimension column — by
plain lexicographic string comparison, whenever every row carries a
string value at D1; a row without D1 makes the report fail instead. -/
theorem claim_C3_amended (st : ETL) (common : Bool) (d m : List String)
    (ps : List (Row × Value))
    (hres : resolveCols st common = some (d, m))
    (hdec : omap (fun r => (alookup "D1" r).map (fun v => (r, v))) st.rows = some ps)
    (hstr : ∀ p ∈ ps, isStrV p.2 = true) :
    ∃ sorted : List Row,
      sorted.Perm st.rows
    ∧ write_tsv_basic st common =
        some ((d ++ m) ::
          sorted.map (fun r => (d ++ m).map (fun c => strOfValue (rowGet r c (.vstr "-")))))
    ∧ sorted.Chain' (fun r1 r2 => ∃ s1 s2, alookup "D1" r1 = some (.vstr s1)
        ∧ alookup "D1" r2 = some (.vstr s2) ∧ pyStrLt s2 s1 = false) := by
  have hdef : ∀ p ∈ ps, ∀ q ∈ ps, ((vle p.2 q.2)).isSome := by
    intro p hp q hq
    have hps := hstr p hp
    have hqs := hstr q hq
    cases hpv : p.2 with
    | vint n => rw [hpv] at hps; simp [isStrV] at hps
    | vstr a =>
      cases hqv : q.2 with
      | vint n2 => rw [hqv] at hqs; simp [isStrV] at hqs
      | vstr b => simp [vle, vlt]
  obtain ⟨sps, hsort⟩ := Option.isSome_iff_exists.mp
    (@sortOptBy_isSome (Row × Value) (fun p q => vle p.2 q.2) ps hdef)
  have hperm : sps.Perm ps := sortOptBy_perm hsort
  refine ⟨sps.map Prod.fst, ?_, ?_, ?_⟩
  · have h2 := hperm.map Prod.fst
    rw [omap_decorate_fst hdec] at h2
    exact h2
  · simp only [write_tsv_basic, hres, hdec, hsort, Option.bind_eq_bind', Option.some_bind',
      Option.pure_def]
    rw [List.map_map]
    rfl
  · have hch := sortOptBy_chain (fun x y : Row × Value => vle_asym) hsort
    rw [List.chain'_map]
    apply chain_imp_mem hch
    intro a ha b hb hr
    have hamem : a ∈ ps := hperm.subset ha
    have hbmem : b ∈ ps := hperm.subset hb
    have ha2 := omap_decorate_lookup hdec a hamem
    have hb2 := omap_decorate_lookup hdec b hbmem
    have has := hstr a hamem
    have hbs := hstr b hbmem
    cases hav : a.2 with
    | vint n => rw [hav] at has; simp [isStrV] at has
    | vstr s1 =>
      cases hbv : b.2 with
      | vint n2 => rw [hbv] at hbs; simp [isStrV] at hbs
      | vstr s2 =>
        refine ⟨s1, s2, by rw [← hav]; exact ha2, by rw [← hbv]; exact hb2, ?_⟩
        rw [hav, hbv] at hr
        simp only [vle, vlt, Option.map_some', Option.some.injEq] at hr
        cases hlt : pyStrLt s2 s1 with
        | false => rfl
        | true => rw [hlt] at hr; simp at hr

/-- C3 (witness): the amended claim applied to a concrete two-row state
whose rows carry string values at D1. -/
theorem claim_C3_amended_witness :
    ∃ sorted : List Row,
      sorted.Perm (read_csv ETL.init "f" [["D1", "M1"], ["b", "2"], ["a", "3"]]).1.rows
    ∧ write_tsv_basic (read_csv ETL.init "f" [["D1", "M1"], ["b", "2"], ["a", "3"]]).1 false =
        some ((["D1"] ++ ["M1"]) ::
          sorted.map (fun r => (["D1"] ++ ["M1"]).map (fun c => strOfValue (rowGet r c (.vstr "-")))))
    ∧ sorted.Chain' (fun r1 r2 => ∃ s1 s2, alookup "D1" r1 = some (.vstr s1)
        ∧ alookup "D1" r2 = some (.vstr s2) ∧ pyStrLt s2 s1 = false) :=
  claim_C3_amended (read_csv ETL.init "f" [["D1", "M1"], ["b", "2"], ["a", "3"]]).1 false
    ["D1"] ["M1"]
    [([("D1", Value.vstr "b"), ("M1", Value.vint 2)], Value.vstr "b"),
     ([("D1", Value.vstr "a"), ("M1", Value.vint 3)], Value.vstr "a")]
    (by decide) (by decide) (by decide)

/-- C5: the Advanced report's header is the resolved dimension columns
followed by the measure columns renamed by inserting S after the first
character; its body has exactly one line per group key of the stored
rows, in ascending lexicographic key order, each line being the key's
values followed by the group's positionwise measure sums. -/
theorem claim_C5 (st : ETL) (common : Bool) (d m : List String)
    (data : List (List Value × List Int)) (ks : List (List Value))
    (hres : resolveCols st common = some (d, m))
    (hagg : get_data_advanced d m st.rows [] = some data)
    (hsort : sortOptBy keyLe (data.map Prod.fst) = some ks) :
    write_tsv_advanced st common =
      some ((d ++ m.map renameM) ::
        ks.map (fun k => k.map strOfValue ++ ((alookupK k data).getD []).map toString))
  ∧ ks.Nodup
  ∧ (∀ k, k ∈ ks ↔ ∃ r ∈ st.rows, rowKeyOf d r = k)
  ∧ ks.Chain' (fun a b => keyLe a b = some true)
  ∧ (∀ k ∈ ks, alookupK k data =
      some (sumVecs (zerosOf m) ((matchedRows d k st.rows).map (vecIntsOf m)))) := by
  have hlook0 : ∀ k, alookupK k data =
      if matchedRows d k st.rows = [] then none
      else some (sumVecs (zerosOf m) ((matchedRows d k st.rows).map (vecIntsOf m))) := by
    intro k
    have hlook := get_data_lookup st.rows [] data (by simp) hagg k
    simpa only [alookupK] using hlook
  have hmem : ∀ k, k ∈ ks ↔ ∃ r ∈ st.rows, rowKeyOf d r = k := by
    intro k
    constructor
    · intro hk
      have hk2 : k ∈ data.map Prod.fst := (sortOptBy_perm hsort).subset hk
      have hne : ¬ alookupK k data = none := by
        rw [alookupK_eq_none_iff]
        intro h2
        exact h2 hk2
      by_cases hm2 : matchedRows d k st.rows = []
      · rw [hlook0 k, if_pos hm2] at hne
        exact absurd rfl hne
      · rcases List.exists_mem_of_ne_nil _ hm2 with ⟨r, hr⟩
        rcases List.mem_filter.mp hr with ⟨hr2, hr3⟩
        exact ⟨r, hr2, by simpa using hr3⟩
    · rintro ⟨r, hr, hkey⟩
      have hm2 : matchedRows d k st.rows ≠ [] := by
        intro hnil2
        have hr2 : r ∈ matchedRows d k st.rows :=
          List.mem_filter.mpr ⟨hr, by simpa using hkey⟩
        rw [hnil2] at hr2
        simp at hr2
      have hk2 : k ∈ data.map Prod.fst := by
        by_contra hk3
        have := alookupK_eq_none_iff.mpr hk3
        rw [hlook0 k, if_neg hm2] at this
        simp at this
      exact ((sortOptBy_perm hsort).mem_iff).mpr hk2
  refine ⟨?_, ?_, hmem, ?_, ?_⟩
  · simp only [write_tsv_advanced, hres, hagg, hsort, Option.bind_eq_bind', Option.some_bind',
      Option.pure_def]
    rfl
  · have hnd : (data.map Prod.fst).Nodup :=
      get_data_keys_nodup st.rows [] data (by simp) hagg
    exact ((sortOptBy_perm hsort).nodup_iff).mpr hnd
  · exact sortOptBy_chain (fun x y => keyLe_asym) hsort
  · intro k hk
    rcases (hmem k).mp hk with ⟨r, hr, hkey⟩
    have hm2 : matchedRows d k st.rows ≠ [] := by
      intro hnil2
      have hr2 : r ∈ matchedRows d k st.rows :=
        List.mem_filter.mpr ⟨hr, by simpa using hkey⟩
      rw [hnil2] at hr2
      simp at hr2
    rw [hlook0 k, if_neg hm2]

/-- C5 (witness): the claim applied to a concrete two-group state. -/
theorem claim_C5_witness :
    write_tsv_advanced (read_csv ETL.init "f" [["D1", "M1"], ["b", "2"], ["a", "3"]]).1 false =
      some ((["D1"] ++ ["M1"].map renameM) ::
        [[Value.vstr "a"], [Value.vstr "b"]].map (fun k => k.map strOfValue ++
          ((alookupK k [([Value.vstr "b"], [2]), ([Value.vstr "a"], [3])]).getD []).map toString))
  ∧ ([[Value.vstr "a"], [Value.vstr "b"]] : List (List Value)).Nodup
  ∧ (∀ k, k ∈ ([[Value.vstr "a"], [Value.vstr "b"]] : List (List Value)) ↔
      ∃ r ∈ (read_csv ETL.init "f" [["D1", "M1"], ["b", "2"], ["a", "3"]]).1.rows,
        rowKeyOf ["D1"] r = k)
  ∧ ([[Value.vstr "a"], [Value.vstr "b"]] : List (List Value)).Chain'
      (fun a b => keyLe a b = some true)
  ∧ (∀ k ∈ ([[Value.vstr "a"], [Value.vstr "b"]] : List (List Value)),
      alookupK k [([Value.vstr "b"], [2]), ([Value.vstr "a"], [3])] =
        some (sumVecs (zerosOf ["M1"]) ((matchedRows ["D1"] k
          (read_csv ETL.init "f" [["D1", "M1"], ["b", "2"], ["a", "3"]]).1.rows).map
            (vecIntsOf ["M1"])))) :=
  claim_C5 (read_csv ETL.init "f" [["D1", "M1"], ["b", "2"], ["a", "3"]]).1 false
    ["D1"] ["M1"] [([Value.vstr "b"], [2]), ([Value.vstr "a"], [3])]
    [[Value.vstr "a"], [Value.vstr "b"]]
    (by decide) (by decide) (by decide)

theorem d_m_sorted_columns_parts {st : ETL} {dU mU : List String}
    (h : d_m_sorted_columns st = some (dU, mU)) :
    pySortBySuffix (st.columns.filter (fun c => c.front = 'D')) = some dU ∧
    pySortBySuffix (st.columns.filter (fun c => c.front = 'M')) = some mU := by
  unfold d_m_sorted_columns at h
  cases hd : pySortBySuffix (st.columns.filter (fun c => c.front = 'D')) with
  | none =>
    rw [hd] at h
    simp at h
  | some ds =>
    rw [hd] at h
    cases hm : pySortBySuffix (st.columns.filter (fun c => c.front = 'M')) with
    | none =>
      rw [hm] at h
      simp at h
    | some ms =>
      rw [hm] at h
      simp only [Option.bind_eq_bind', Option.some_bind', Option.pure_def,
        Option.some.injEq, Prod.mk.injEq] at h
      exact ⟨by rw [h.1], by rw [h.2]⟩

theorem d_m_sorted_common_columns_parts {st : ETL} {dI mI : List String}
    (he : ¬ st.common_columns.isEmpty)
    (h : d_m_sorted_common_columns st = some (dI, mI)) :
    pySortBySuffix ((interAll st.common_columns).filter (fun c => c.front = 'D')) = some dI ∧
    pySortBySuffix ((interAll st.common_columns).filter (fun c => c.front = 'M')) = some mI := by
  unfold d_m_sorted_common_columns at h
  rw [if_neg he] at h
  cases hd : pySortBySuffix ((interAll st.common_columns).filter (fun c => c.front = 'D')) with
  | none =>
    rw [hd] at h
    simp at h
  | some ds =>
    rw [hd] at h
    cases hm : pySortBySuffix ((interAll st.common_columns).filter (fun c => c.front = 'M')) with
    | none =>
      rw [hm] at h
      simp at h
    | some ms =>
      rw [hm] at h
      simp only [Option.bind_eq_bind', Option.some_bind', Option.pure_def,
        Option.some.injEq, Prod.mk.injEq] at h
      exact ⟨by rw [h.1], by rw [h.2]⟩

/-- C6: for every reachable Row Store state, the intersection-policy
resolved dimension and measure lists are subsets, as sets of names, of
the corresponding union-policy resolved lists. -/
theorem claim_C6 (ops : List Op) (dI mI dU mU : List String)
    (hI : d_m_sorted_common_columns (runOps ops) = some (dI, mI))
    (hU : d_m_sorted_columns (runOps ops) = some (dU, mU)) :
    (∀ x ∈ dI, x ∈ dU) ∧ (∀ x ∈ mI, x ∈ mU) := by
  rcases d_m_sorted_columns_parts hU with ⟨hUd, hUm⟩
  by_cases he : (runOps ops).common_columns.isEmpty
  · unfold d_m_sorted_common_columns at hI
    rw [if_pos he] at hI
    simp only [Option.some.injEq, Prod.mk.injEq] at hI
    constructor
    · intro x hx
      rw [← hI.1] at hx
      simp at hx
    · intro x hx
      rw [← hI.2] at hx
      simp at hx
  · rcases d_m_sorted_common_columns_parts he hI with ⟨hId, hIm⟩
    have hcol : ∀ x ∈ interAll (runOps ops).common_columns, x ∈ (runOps ops).columns := by
      intro x hx
      rcases mem_interAll.mp hx with ⟨hne, hall⟩
      rcases List.exists_mem_of_ne_nil _ hne with ⟨s, hs⟩
      exact runOps_common_subset_columns ops s hs x (hall s hs)
    constructor
    · intro x hx
      have hx2 := (pySortBySuffix_mem hId).mp hx
      rcases List.mem_filter.mp hx2 with ⟨hx3, hx4⟩
      exact (pySortBySuffix_mem hUd).mpr (List.mem_filter.mpr ⟨hcol x hx3, hx4⟩)
    · intro x hx
      have hx2 := (pySortBySuffix_mem hIm).mp hx
      rcases List.mem_filter.mp hx2 with ⟨hx3, hx4⟩
      exact (pySortBySuffix_mem hUm).mpr (List.mem_filter.mpr ⟨hcol x hx3, hx4⟩)

/-- C6 (witness): two csv sources, one contributing an extra dimension
column; the intersection lists are contained in the union lists. -/
theorem claim_C6_witness :
    (∀ x ∈ ["D1"], x ∈ ["D1", "D2"]) ∧ (∀ x ∈ ["M1"], x ∈ ["M1"]) :=
  claim_C6 [Op.csv "f" [["D1", "M1"]], Op.csv "g" [["D2", "D1", "M1"]]]
    ["D1"] ["M1"] ["D1", "D2"] ["M1"] (by decide) (by decide)

theorem pySortBySuffix_perm_eq {l1 l2 : List String} (hp : l1.Perm l2)
    (hinj : ∀ s ∈ l1, ∀ t ∈ l1, s ≠ t → suffixKey s ≠ suffixKey t) :
    pySortBySuffix l1 = pySortBySuffix l2 := by
  cases h1 : pySortBySuffix l1 with
  | none =>
    cases h2 : pySortBySuffix l2 with
    | none => rfl
    | some r2 =>
      have hall := pySortBySuffix_isSome.mp (by rw [h2]; rfl)
      have h3 : (pySortBySuffix l1).isSome :=
        pySortBySuffix_isSome.mpr (fun s hs => hall s (hp.subset hs))
      rw [h1] at h3
      simp at h3
  | some r1 =>
    cases h2 : pySortBySuffix l2 with
    | none =>
      have hall := pySortBySuffix_isSome.mp (by rw [h1]; rfl)
      have h3 : (pySortBySuffix l2).isSome :=
        pySortBySuffix_isSome.mpr (fun s hs => hall s (hp.symm.subset hs))
      rw [h2] at h3
      simp at h3
    | some r2 => rw [pySortBySuffix_eq_of_perm hp hinj h1 h2]

/-- C7: permuting the ingestion calls changes neither the group-key to
group-value mapping computed by the aggregation step (for any choice of
resolved column lists, errors included) nor the intersection-policy
resolved column lists, the latter provided distinct column names of one
role never share a numeric suffix (on suffix ties the underlying set
iteration order is unspecified). -/
theorem claim_C7 (ops1 ops2 : List Op) (hperm : ops1.Perm ops2)
    (hinj : ∀ s ∈ interAll (runOps ops1).common_columns,
            ∀ t ∈ interAll (runOps ops1).common_columns,
            s ≠ t → s.front = t.front → suffixKey s ≠ suffixKey t) :
    (∀ (dcols mcols : List String) (k : List Value),
        (get_data_advanced dcols mcols (runOps ops1).rows []).map (alookupK k) =
        (get_data_advanced dcols mcols (runOps ops2).rows []).map (alookupK k))
  ∧ d_m_sorted_common_columns (runOps ops1) = d_m_sorted_common_columns (runOps ops2) := by
  have hrows : (runOps ops1).rows.Perm (runOps ops2).rows := by
    rw [runOps_rows, runOps_rows]
    exact perm_flatten (hperm.map opRows)
  have hcommon : (runOps ops1).common_columns.Perm (runOps ops2).common_columns := by
    rw [runOps_common, runOps_common]
    exact perm_flatten (hperm.map opCommon)
  constructor
  · intro dcols mcols k
    by_cases hgood : ∀ r ∈ (runOps ops1).rows, rowBad mcols r = false
    · have hgood2 : ∀ r ∈ (runOps ops2).rows, rowBad mcols r = false :=
        fun r hr => hgood r (hrows.mem_iff.mpr hr)
      obtain ⟨out1, h1⟩ := Option.isSome_iff_exists.mp
        ((@get_data_isSome dcols mcols (runOps ops1).rows [] (by simp)).mpr hgood)
      obtain ⟨out2, h2⟩ := Option.isSome_iff_exists.mp
        ((@get_data_isSome dcols mcols (runOps ops2).rows [] (by simp)).mpr hgood2)
      rw [h1, h2]
      simp only [Option.map_some', Option.some.injEq]
      have hl1 := get_data_lookup (runOps ops1).rows [] out1 (by simp) h1 k
      have hl2 := get_data_lookup (runOps ops2).rows [] out2 (by simp) h2 k
      simp only [alookupK] at hl1 hl2
      rw [hl1, hl2]
      have hmatch : (matchedRows dcols k (runOps ops1).rows).Perm
          (matchedRows dcols k (runOps ops2).rows) := hrows.filter _
      by_cases hnil : matchedRows dcols k (runOps ops1).rows = []
      · have hnil2 : matchedRows dcols k (runOps ops2).rows = [] :=
          (hnil ▸ hmatch).symm.eq_nil
        rw [if_pos hnil, if_pos hnil2]
      · have hnil2 : matchedRows dcols k (runOps ops2).rows ≠ [] := by
          intro hh
          exact hnil (hh ▸ hmatch.symm).symm.eq_nil
        rw [if_neg hnil, if_neg hnil2]
        rw [sumVecs_perm (hmatch.map (vecIntsOf mcols)) (zerosOf mcols)]
    · have hgood2 : ¬ ∀ r ∈ (runOps ops2).rows, rowBad mcols r = false := by
        intro hh
        exact hgood (fun r hr => hh r (hrows.mem_iff.mp hr))
      have h1 : get_data_advanced dcols mcols (runOps ops1).rows [] = none := by
        cases hh : get_data_advanced dcols mcols (runOps ops1).rows [] with
        | none => rfl
        | some o =>
          exact absurd ((@get_data_isSome dcols mcols (runOps ops1).rows [] (by simp)).mp
            (by rw [hh]; rfl)) hgood
      have h2 : get_data_advanced dcols mcols (runOps ops2).rows [] = none := by
        cases hh : get_data_advanced dcols mcols (runOps ops2).rows [] with
        | none => rfl
        | some o =>
          exact absurd ((@get_data_isSome dcols mcols (runOps ops2).rows [] (by simp)).mp
            (by rw [hh]; rfl)) hgood2
      rw [h1, h2]
  · by_cases he : (runOps ops1).common_columns.isEmpty
    · have he2 : (runOps ops2).common_columns.isEmpty := by
        rw [List.isEmpty_iff] at he ⊢
        exact (he ▸ hcommon).symm.eq_nil
      unfold d_m_sorted_common_columns
      rw [if_pos he, if_pos he2]
    · have he2 : ¬ (runOps ops2).common_columns.isEmpty := by
        rw [List.isEmpty_iff] at he ⊢
        intro hh
        exact he (hh ▸ hcommon.symm).symm.eq_nil
      have hIperm : (interAll (runOps ops1).common_columns).Perm
          (interAll (runOps ops2).common_columns) := by
        refine (List.perm_ext_iff_of_nodup
          (interAll_nodup (runOps_common_nodup ops1))
          (interAll_nodup (runOps_common_nodup ops2))).mpr ?_
        intro a
        rw [mem_interAll, mem_interAll]
        constructor
        · rintro ⟨hne, hall⟩
          refine ⟨?_, fun s hs => hall s (hcommon.mem_iff.mpr hs)⟩
          intro hh
          rw [List.isEmpty_iff] at he2
          exact he2 hh
        · rintro ⟨hne, hall⟩
          refine ⟨?_, fun s hs => hall s (hcommon.mem_iff.mp hs)⟩
          intro hh
          rw [List.isEmpty_iff] at he
          exact he hh
      have hinjD : ∀ s ∈ (interAll (runOps ops1).common_columns).filter (fun c => c.front = 'D'),
          ∀ t ∈ (interAll (runOps ops1).common_columns).filter (fun c => c.front = 'D'),
          s ≠ t → suffixKey s ≠ suffixKey t := by
        intro s hs t ht hne
        rcases List.mem_filter.mp hs with ⟨hs1, hs2⟩
        rcases List.mem_filter.mp ht with ⟨ht1, ht2⟩
        refine hinj s hs1 t ht1 hne ?_
        rw [show s.front = 'D' from by simpa using hs2,
          show t.front = 'D' from by simpa using ht2]
      have hinjM : ∀ s ∈ (interAll (runOps ops1).common_columns).filter (fun c => c.front = 'M'),
          ∀ t ∈ (interAll (runOps ops1).common_columns).filter (fun c => c.front = 'M'),
          s ≠ t → suffixKey s ≠ suffixKey t := by
        intro s hs t ht hne
        rcases List.mem_filter.mp hs with ⟨hs1, hs2⟩
        rcases List.mem_filter.mp ht with ⟨ht1, ht2⟩
        refine hinj s hs1 t ht1 hne ?_
        rw [show s.front = 'M' from by simpa using hs2,
          show t.front = 'M' from by simpa using ht2]
      have hDeq := pySortBySuffix_perm_eq (hIperm.filter (fun c => c.front = 'D')) hinjD
      have hMeq := pySortBySuffix_perm_eq (hIperm.filter (fun c => c.front = 'M')) hinjM
      unfold d_m_sorted_common_columns
      rw [if_neg he, if_neg he2, hDeq, hMeq]

/-- C7 (witness): two csv sources ingested in both orders give the same
aggregation mapping lookups and the same intersection-resolved lists. -/
theorem claim_C7_witness :
    (∀ (dcols mcols : List String) (k : List Value),
        (get_data_advanced dcols mcols
          (runOps [Op.csv "f" [["D1", "M1"], ["a", "3"]], Op.csv "g" [["D1"], ["b"]]]).rows []).map
            (alookupK k) =
        (get_data_advanced dcols mcols
          (runOps [Op.csv "g" [["D1"], ["b"]], Op.csv "f" [["D1", "M1"], ["a", "3"]]]).rows []).map
            (alookupK k))
  ∧ d_m_sorted_common_columns
        (runOps [Op.csv "f" [["D1", "M1"], ["a", "3"]], Op.csv "g" [["D1"], ["b"]]]) =
      d_m_sorted_common_columns
        (runOps [Op.csv "g" [["D1"], ["b"]], Op.csv "f" [["D1", "M1"], ["a", "3"]]]) :=
  claim_C7 [Op.csv "f" [["D1", "M1"], ["a", "3"]], Op.csv "g" [["D1"], ["b"]]]
    [Op.csv "g" [["D1"], ["b"]], Op.csv "f" [["D1", "M1"], ["a", "3"]]]
    (List.Perm.swap _ _ _) (by decide)
